import Mathlib

/-!
Verification of the proto3 specification generator (package proto3, file
spec.go) against its natural-language specification.  The Go data types are
embedded as Lean structures and inductives; the Validate and Write methods
are embedded as Lean functions over those types.  Go errors of type error
are modelled with Except String, carrying the exact message text the source
constructs; a Go method returning (string, error) becomes a function into
Except String String.  The uint8-valued types TagType, FieldType and
FieldRule carry no arithmetic in the source (they are only compared and
printed), so they are embedded as Nat; every concrete value used in a
theorem below lies in the uint8 range 0..255.
-/

namespace Protogen

/-- ImportType applies to a package import statement. -/
abbrev ImportType := String

/-- NameType applies to a field name. -/
abbrev NameType := String

/-- TagType applies to a field tag value (uint8 in the source; only order
comparisons and decimal printing occur, never arithmetic). -/
abbrev TagType := Nat

/-- FieldType applies to the data-type of a field value (uint8 in the source). -/
abbrev FieldType := Nat

/-- FieldRule specifies additional rules (e.g. repeated) that can be set on a
field (uint8 in the source). -/
abbrev FieldRule := Nat

/-- FieldRule constant None of the source (iota value 0). -/
def NoneRule : FieldRule := 0

/-- FieldRule constant Repeated of the source (iota value 1). -/
def Repeated : FieldRule := 1

/-- Built-in field type constants, in source iota order 0..14. -/
def DoubleType : FieldType := 0

def FloatType : FieldType := 1

def Int32Type : FieldType := 2

def Int64Type : FieldType := 3

def UInt32Type : FieldType := 4

def UInt64Type : FieldType := 5

def SInt32Type : FieldType := 6

def SInt64Type : FieldType := 7

def Fixed32Type : FieldType := 8

def Fixed64Type : FieldType := 9

def SFixed32Type : FieldType := 10

def SFixed64Type : FieldType := 11

def BoolType : FieldType := 12

def StringType : FieldType := 13

def BytesType : FieldType := 14

/-- ReservedName is a field name that is reserved within a message type. -/
structure ReservedName where
  Name : NameType
deriving DecidableEq, Repr

/-- ReservedTagValue is a single reserved field tag value. -/
structure ReservedTagValue where
  Tag : TagType
deriving DecidableEq, Repr

/-- ReservedTagRange is a range of reserved numeric tag values. -/
structure ReservedTagRange where
  LowerTag : TagType
  UpperTag : TagType
deriving DecidableEq, Repr

/-- Reserved is the interface over the three reserved declaration shapes,
embedded as a closed sum over the concrete types implementing it in the
source package. -/
inductive Reserved where
  | name (r : ReservedName)
  | tagValue (r : ReservedTagValue)
  | tagRange (r : ReservedTagRange)
deriving DecidableEq, Repr

/-- CustomField is a message field with an unchecked, custom type. -/
structure CustomField where
  Name : NameType
  Tag : TagType
  Rule : FieldRule
  Comment : String
  Typing : String
deriving DecidableEq, Repr

/-- ScalarField is a message field that uses a built-in protobuf type. -/
structure ScalarField where
  Name : NameType
  Tag : TagType
  Rule : FieldRule
  Comment : String
  Typing : FieldType
deriving DecidableEq, Repr

/-- MapField is a message field mapping built-in types as key-value pairs. -/
structure MapField where
  Name : NameType
  Tag : TagType
  Rule : FieldRule
  Comment : String
  KeyTyping : FieldType
  ValueTyping : FieldType
deriving DecidableEq, Repr

/-- CustomMapField maps a built-in key type to a custom value type. -/
structure CustomMapField where
  Name : NameType
  Tag : TagType
  Rule : FieldRule
  Comment : String
  KeyTyping : FieldType
  ValueTyping : String
deriving DecidableEq, Repr

/-- Field is the interface over the four field shapes, embedded as a closed
sum over the concrete types implementing it in the source package. -/
inductive Field where
  | scalar (f : ScalarField)
  | custom (f : CustomField)
  | map (f : MapField)
  | customMap (f : CustomMapField)
deriving DecidableEq, Repr

/-- EnumValue describes a single enumerated value within an enumeration. -/
structure EnumValue where
  Name : NameType
  Tag : TagType
  Comment : String
deriving DecidableEq, Repr, Inhabited

/-- Enum defines an enumeration type of a set of values. -/
structure Enum where
  Name : NameType
  Values : List EnumValue
  AllowAlias : Bool
  Comment : String
deriving DecidableEq, Repr

/-- OneOf defines a set of fields of which only the most recently set one is
used. -/
structure OneOf where
  Name : NameType
  Fields : List Field
  Comment : String
deriving DecidableEq, Repr

/-- Message is a single Protobuf message definition.  The type is recursive
through the list of nested messages, so it is an inductive rather than a
structure. -/
inductive Message where
  | mk (Name : String) (Comment : String) (Messages : List Message)
      (ReservedValues : List Reserved) (Fields : List Field)
      (OneOfs : List OneOf) (Enums : List Enum)

/-- Projection for the Name attribute of a Message. -/
def Message.Name : Message → String
  | .mk n _ _ _ _ _ _ => n

/-- Projection for the Comment attribute of a Message. -/
def Message.Comment : Message → String
  | .mk _ c _ _ _ _ _ => c

/-- Projection for the nested Messages of a Message. -/
def Message.Messages : Message → List Message
  | .mk _ _ ms _ _ _ _ => ms

/-- Projection for the ReservedValues of a Message. -/
def Message.ReservedValues : Message → List Reserved
  | .mk _ _ _ rs _ _ _ => rs

/-- Projection for the Fields of a Message. -/
def Message.Fields : Message → List Field
  | .mk _ _ _ _ fs _ _ => fs

/-- Projection for the OneOfs of a Message. -/
def Message.OneOfs : Message → List OneOf
  | .mk _ _ _ _ _ os _ => os

/-- Projection for the Enums of a Message. -/
def Message.Enums : Message → List Enum
  | .mk _ _ _ _ _ _ es => es

/-- Spec represents a top-level Protobuf specification. -/
structure Spec where
  Package : String
  JavaPackage : String
  Imports : List ImportType
  Messages : List Message
  Enums : List Enum

/-! Formatting helpers of the source. -/

/-- Function indentLevel: two literal spaces per indentation level. -/
def indentLevel (level : Nat) : String :=
  String.join (List.replicate level "  ")

/-- Method Write of FieldRule: switch over the constants, default empty. -/
def FieldRule.Write (f : FieldRule) : String :=
  match f with
  | 0 => ""
  | 1 => "repeated "
  | _ => ""

/-- Method Write of FieldType: the fixed type-to-keyword table, with the
default branch of the source switch returning the empty string. -/
def FieldType.Write (f : FieldType) : String :=
  match f with
  | 0 => "double"
  | 1 => "float"
  | 2 => "int32"
  | 3 => "int64"
  | 4 => "uint32"
  | 5 => "uint64"
  | 6 => "sint32"
  | 7 => "sint64"
  | 8 => "fixed32"
  | 9 => "fixed64"
  | 10 => "sfixed32"
  | 11 => "sfixed64"
  | 12 => "bool"
  | 13 => "string"
  | 14 => "bytes"
  | _ => ""

/-! Leaf writers.  Each returns the pair (string, error) of the source as an
Except value; every leaf writer in the source returns a nil error. -/

/-- Method Write of ReservedName. -/
def ReservedName.Write (r : ReservedName) : Except String String :=
  .ok ("\"" ++ r.Name ++ "\"")

/-- Method Write of ReservedTagValue. -/
def ReservedTagValue.Write (r : ReservedTagValue) : Except String String :=
  .ok (toString r.Tag)

/-- Method Write of ReservedTagRange. -/
def ReservedTagRange.Write (r : ReservedTagRange) : Except String String :=
  .ok (toString r.LowerTag ++ " to " ++ toString r.UpperTag)

/-- Dynamic dispatch of Write over the Reserved interface. -/
def Reserved.Write : Reserved → Except String String
  | .name r => r.Write
  | .tagValue r => r.Write
  | .tagRange r => r.Write

/-- Method Write of CustomField. -/
def CustomField.Write (c : CustomField) : Except String String :=
  let v := FieldRule.Write c.Rule ++ c.Typing ++ " " ++ c.Name ++ " = " ++ toString c.Tag ++ ";"
  let v := if c.Comment ≠ "" then v ++ "   // " ++ c.Comment else v
  .ok v

/-- Method Write of ScalarField. -/
def ScalarField.Write (s : ScalarField) : Except String String :=
  let v := FieldRule.Write s.Rule ++ FieldType.Write s.Typing ++ " " ++ s.Name ++ " = "
    ++ toString s.Tag ++ ";"
  let v := if s.Comment ≠ "" then v ++ "   // " ++ s.Comment else v
  .ok v

/-- Method Write of MapField. -/
def MapField.Write (m : MapField) : Except String String :=
  let v := FieldRule.Write m.Rule ++ "map<" ++ FieldType.Write m.KeyTyping ++ ", "
    ++ FieldType.Write m.ValueTyping ++ "> " ++ m.Name ++ " = " ++ toString m.Tag ++ ";"
  let v := if m.Comment ≠ "" then v ++ "   // " ++ m.Comment else v
  .ok v

/-- Method Write of CustomMapField. -/
def CustomMapField.Write (c : CustomMapField) : Except String String :=
  let v := FieldRule.Write c.Rule ++ "map<" ++ FieldType.Write c.KeyTyping ++ ", "
    ++ c.ValueTyping ++ "> " ++ c.Name ++ " = " ++ toString c.Tag ++ ";"
  let v := if c.Comment ≠ "" then v ++ "   // " ++ c.Comment else v
  .ok v

/-- Dynamic dispatch of Write over the Field interface. -/
def Field.Write : Field → Except String String
  | .scalar f => f.Write
  | .custom f => f.Write
  | .map f => f.Write
  | .customMap f => f.Write

namespace GoSort

/-!
Embedding of the sort.Sort implementation of the Go 1.8.1 standard library
(file src/sort/sort.go of the toolchain pinned by circle.yml), specialized
to the sort.Interface instance that Enum provides: Len is the length of the
Values list, Less compares Values at two positions by Tag, and Swap
exchanges two positions of the Values list.  Enum.Write calls sort.Sort on
its receiver before emitting any text.

Loops of the source are compiled to recursive functions.  Counting-down
loops recurse structurally on the loop index.  Counting-up loops recurse
structurally on an explicit iteration bound, while keeping the boolean loop
condition of the source as a guard; at every call site the bound passed is
at least the number of iterations the guarded loop can perform, so the
guard and never the bound ends the loop, and the functions compute exactly
what the source loops compute.  All functions are structurally recursive so
that the kernel can evaluate them on concrete input.
-/

/-- Reads position i of the value list (all accesses of the algorithm are in
bounds; out-of-range reads return the default value). -/
def lget (l : List EnumValue) (i : Nat) : EnumValue :=
  l.getD i default

/-- Method Swap of the sort.Interface instance of Enum: exchanges positions
i and j of the value list (List.set ignores out-of-range indices). -/
def lswap (l : List EnumValue) (i j : Nat) : List EnumValue :=
  (l.set i (lget l j)).set j (lget l i)

/-- Method Less of the sort.Interface instance of Enum: compares the Tags at
positions i and j. -/
def less (l : List EnumValue) (i j : Nat) : Bool :=
  (lget l i).Tag < (lget l j).Tag

/-- Inner loop of insertionSort: sifts the element at position j down while
it is less than its left neighbour and j is above a. -/
def insInner (a : Nat) : List EnumValue → Nat → List EnumValue
  | l, 0 => l
  | l, j + 1 =>
    if a < j + 1 ∧ less l (j + 1) j = true then insInner a (lswap l (j + 1) j) j else l

/-- Outer loop of insertionSort: i runs from a+1 up to b; n bounds the
remaining iterations. -/
def insOuter (a b : Nat) : List EnumValue → Nat → Nat → List EnumValue
  | l, _, 0 => l
  | l, i, n + 1 => if i < b then insOuter a b (insInner a l i) (i + 1) n else l

/-- Function insertionSort of the source, on the range [a, b). -/
def insertionSort (l : List EnumValue) (a b : Nat) : List EnumValue :=
  insOuter a b l (a + 1) b

/-- ShellSort pass with gap 6 performed by quickSort on ranges of at most 12
elements: i runs from a+6 up to b; n bounds the remaining iterations. -/
def shellLoop (a b : Nat) : List EnumValue → Nat → Nat → List EnumValue
  | l, _, 0 => l
  | l, i, n + 1 =>
    if i < b then shellLoop a b (if less l i (i - 6) = true then lswap l i (i - 6) else l) (i + 1) n
    else l

/-- Loop of siftDown: root descends through the implicit heap; n bounds the
remaining iterations (the root strictly increases and stays below hi). -/
def siftLoop (hi first : Nat) : List EnumValue → Nat → Nat → List EnumValue
  | l, _, 0 => l
  | l, root, n + 1 =>
    let child := 2 * root + 1
    if child ≥ hi then l
    else
      let child := if child + 1 < hi ∧ less l (first + child) (first + child + 1) = true
        then child + 1 else child
      if ¬ less l (first + root) (first + child) = true then l
      else siftLoop hi first (lswap l (first + root) (first + child)) child n

/-- Function siftDown of the source. -/
def siftDown (l : List EnumValue) (lo hi first : Nat) : List EnumValue :=
  siftLoop hi first l lo (hi + 1)

/-- Heap-building loop of heapSort: i runs from (hi-1)/2 down to 0
inclusive. -/
def heapBuild (hi first : Nat) : List EnumValue → Nat → List EnumValue
  | l, 0 => siftDown l 0 hi first
  | l, i + 1 => heapBuild hi first (siftDown l (i + 1) hi first) i

/-- Popping loop of heapSort: the argument counts the remaining iterations;
argument value i+1 performs the body of the source loop at index i. -/
def heapPop (first : Nat) : List EnumValue → Nat → List EnumValue
  | l, 0 => l
  | l, i + 1 => heapPop first (siftDown (lswap l first (first + i)) 0 i first) i

/-- Function heapSort of the source. -/
def heapSort (l : List EnumValue) (a b : Nat) : List EnumValue :=
  let first := a
  let hi := b - a
  heapPop first (heapBuild hi first l ((hi - 1) / 2)) hi

/-- Function medianOfThree of the source: moves the median of the values at
positions m1, m0, m2 into position m1. -/
def medianOfThree (l : List EnumValue) (m1 m0 m2 : Nat) : List EnumValue :=
  let l := if less l m1 m0 = true then lswap l m1 m0 else l
  if less l m2 m1 = true then
    let l := lswap l m2 m1
    if less l m1 m0 = true then lswap l m1 m0 else l
  else l

/-- First scan of doPivot: a advances while a < c and the element at a is
less than the pivot; n bounds the remaining iterations. -/
def scanA (pivot c : Nat) (l : List EnumValue) : Nat → Nat → Nat
  | a, 0 => a
  | a, n + 1 => if a < c ∧ less l a pivot = true then scanA pivot c l (a + 1) n else a

/-- Scan of the main partition loop: b advances while b < c and the element
at b is not greater than the pivot; n bounds the remaining iterations. -/
def scanB (pivot c : Nat) (l : List EnumValue) : Nat → Nat → Nat
  | b, 0 => b
  | b, n + 1 => if b < c ∧ ¬ less l pivot b = true then scanB pivot c l (b + 1) n else b

/-- Scan of the main partition loop: c retreats while b < c and the element
at c-1 is greater than the pivot. -/
def scanC (pivot b : Nat) (l : List EnumValue) : Nat → Nat
  | 0 => 0
  | c + 1 => if b < c + 1 ∧ less l pivot c = true then scanC pivot b l c else c + 1

/-- Main partition loop of doPivot; n bounds the remaining iterations. -/
def partLoop (pivot : Nat) : List EnumValue → Nat → Nat → Nat → List EnumValue × Nat × Nat
  | l, b, c, 0 => (l, b, c)
  | l, b, c, n + 1 =>
    let b := scanB pivot c l b c
    let c := scanC pivot b l c
    if b ≥ c then (l, b, c)
    else partLoop pivot (lswap l b (c - 1)) (b + 1) (c - 1) n

/-- Scan of the protect loop: b retreats while a < b and the element at b-1
is not less than the pivot. -/
def protScanB (pivot a : Nat) (l : List EnumValue) : Nat → Nat
  | 0 => 0
  | b + 1 => if a < b + 1 ∧ ¬ less l b pivot = true then protScanB pivot a l b else b + 1

/-- Scan of the protect loop: a advances while a < b and the element at a is
less than the pivot; n bounds the remaining iterations. -/
def protScanA (pivot b : Nat) (l : List EnumValue) : Nat → Nat → Nat
  | a, 0 => a
  | a, n + 1 => if a < b ∧ less l a pivot = true then protScanA pivot b l (a + 1) n else a

/-- Protect loop of doPivot, guarding against many duplicates; n bounds the
remaining iterations.  Only the final b is used by the caller. -/
def protLoop (pivot : Nat) : List EnumValue → Nat → Nat → Nat → List EnumValue × Nat
  | l, _, b, 0 => (l, b)
  | l, a, b, n + 1 =>
    let b := protScanB pivot a l b
    let a := protScanA pivot b l a b
    if a ≥ b then (l, b)
    else protLoop pivot (lswap l a (b - 1)) (a + 1) (b - 1) n

/-- Median-of-medians preparation of doPivot on ranges longer than 40
(Tukey ninther): three medianOfThree passes over the left, middle and
right ninths. -/
def ninther (l : List EnumValue) (lo hi : Nat) : List EnumValue :=
  let m := lo + (hi - lo) / 2
  if hi - lo > 40 then
    let s := (hi - lo) / 8
    let l := medianOfThree l lo (lo + s) (lo + 2 * s)
    let l := medianOfThree l m (m - s) (m + s)
    medianOfThree l (hi - 1) (hi - 1 - s) (hi - 1 - 2 * s)
  else l

/-- Duplicate guard of doPivot: the protect computation of the source
between the main partition loop and the final pivot placement.  The three
conditional steps of the source mutate data, b, c and dups in order; here
each mutated component is a separate conditional, where steps 2 and 3 read
the list produced by step 1 (step 2 does not modify the list) and step 3
reads the b produced by step 2, exactly as the sequential mutations of the
source do.  Returns the list, b, c and the protect flag. -/
def dupGuard (l : List EnumValue) (lo hi m b c : Nat) :
    List EnumValue × Nat × Nat × Bool :=
  let pivot := lo
  let protect : Bool := decide (hi - c < 5)
  if protect = false ∧ hi - c < (hi - lo) / 4 then
    let l1 := if ¬ less l pivot (hi - 1) = true then lswap l c (hi - 1) else l
    let c1 := if ¬ less l pivot (hi - 1) = true then c + 1 else c
    let d1 : Nat := if ¬ less l pivot (hi - 1) = true then 1 else 0
    let b2 := if ¬ less l1 (b - 1) pivot = true then b - 1 else b
    let d2 := if ¬ less l1 (b - 1) pivot = true then d1 + 1 else d1
    let l3 := if ¬ less l1 m pivot = true then lswap l1 m (b2 - 1) else l1
    let b3 := if ¬ less l1 m pivot = true then b2 - 1 else b2
    let d3 := if ¬ less l1 m pivot = true then d2 + 1 else d2
    (l3, b3, c1, decide (d3 > 1))
  else (l, b, c, protect)

/-- Function doPivot of the source: partitions [lo, hi) around a
median-of-three pivot and returns the new list together with midlo and
midhi. -/
def doPivot (l : List EnumValue) (lo hi : Nat) : List EnumValue × Nat × Nat :=
  let m := lo + (hi - lo) / 2
  let l := ninther l lo hi
  let l := medianOfThree l lo m (hi - 1)
  let pivot := lo
  let a := scanA pivot (hi - 1) l (lo + 1) (hi - 1)
  let p := partLoop pivot l a (hi - 1) (hi - 1)
  let g := dupGuard p.1 lo hi m p.2.1 p.2.2
  let q := if g.2.2.2 = true then protLoop pivot g.1 (lo + 1) g.2.1 g.2.1
    else (g.1, g.2.1)
  let l := lswap q.1 pivot (q.2 - 1)
  (l, q.2 - 1, g.2.2.1)

/-- Function quickSort of the source.  The source decrements maxDepth once
per iteration of its outer loop and both the recursive call and the loop
continuation proceed with the decremented value, so the recursion is
structural on maxDepth. -/
def quickSort : List EnumValue → Nat → Nat → Nat → List EnumValue
  | l, a, b, 0 => if b - a > 12 then heapSort l a b
      else if b - a > 1 then insertionSort (shellLoop a b l (a + 6) b) a b
      else l
  | l, a, b, d + 1 =>
    if b - a > 12 then
      match doPivot l a b with
      | (l, mlo, mhi) =>
        if mlo - a < b - mhi then quickSort (quickSort l a mlo d) mhi b d
        else quickSort (quickSort l mhi b d) a mlo d
    else if b - a > 1 then insertionSort (shellLoop a b l (a + 6) b) a b
    else l

/-- Depth counter of function Sort of the source: the number of iterations
of the loop for i := n; i greater than 0; i halved; n bounds the remaining
iterations. -/
def depthCount : Nat → Nat → Nat
  | _, 0 => 0
  | i, n + 1 => if i > 0 then 1 + depthCount (i / 2) n else 0

/-- Function Sort of the source package sort, for the Enum instance: sorts
the whole value list with quickSort at depth allowance 2 times the bit
length of n.  (Named sortList because Sort is reserved in Lean.) -/
def sortList (l : List EnumValue) : List EnumValue :=
  quickSort l 0 l.length (2 * depthCount l.length l.length)

end GoSort

/-! Composite writers. -/

/-- Text of one enum value line of Enum.Write (indentation, name, tag, and
the optional comment suffix, ending in a newline). -/
def enumValueLine (level : Nat) (ev : EnumValue) : String :=
  let line := indentLevel (level + 1) ++ ev.Name ++ " = " ++ toString ev.Tag ++ ";"
  let line := if ev.Comment ≠ "" then line ++ "   // " ++ ev.Comment else line
  line ++ "\n"

/-- Effect of the sort.Sort call of Enum.Write on the receiver: the Values
list reordered by the Go sort. -/
def Enum.sorted (e : Enum) : Enum :=
  { e with Values := GoSort.sortList e.Values }

/-- Text assembled by Enum.Write after its sort.Sort call, from the
already-sorted receiver. -/
def enumText (e : Enum) (level : Nat) : String :=
  let v := if e.Comment ≠ "" then indentLevel level ++ "// " ++ e.Comment ++ "\n" else ""
  let v := v ++ indentLevel level ++ "enum " ++ e.Name ++ " \x7b\n"
  let v := if e.AllowAlias then v ++ indentLevel (level + 1) ++ "option allow_alias = true;\n"
    else v
  let v := v ++ String.join (e.Values.map (enumValueLine level))
  v ++ indentLevel level ++ "\x7d"

/-- Method Write of Enum at an indentation level.  The source first runs
sort.Sort on the receiver, which reorders the shared Values list in place;
the returned Enum carries that reordered list, modelling the mutation the
caller observes.  The error of the returned pair is always nil in the
source. -/
def Enum.Write (e : Enum) (level : Nat) : Except String String × Enum :=
  (.ok (enumText e.sorted level), e.sorted)

/-- Field loop of OneOf.Write: renders each member field on its own indented
line, propagating a field write error as the source loop does. -/
def oneOfFieldLines (level : Nat) : List Field → Except String String
  | [] => .ok ""
  | f :: fs =>
    match f.Write with
    | .error e => .error e
    | .ok s =>
      match oneOfFieldLines level fs with
      | .error e => .error e
      | .ok rest => .ok (indentLevel (level + 1) ++ s ++ "\n" ++ rest)

/-- Method Write of OneOf at an indentation level.  The source does not call
Validate here. -/
def OneOf.Write (o : OneOf) (level : Nat) : Except String String :=
  let v := if o.Comment ≠ "" then indentLevel level ++ "// " ++ o.Comment ++ "\n" else ""
  let v := v ++ indentLevel level ++ "oneof " ++ o.Name ++ " \x7b\n"
  match oneOfFieldLines level o.Fields with
  | .error e => .error e
  | .ok body => .ok (v ++ body ++ indentLevel level ++ "\x7d")

/-! Validators. -/

/-- Method Validate of ScalarField. -/
def ScalarField.Validate (s : ScalarField) : Except String Unit :=
  if s.Name = "" then .error "Scalar field must have a non-empty name" else .ok ()

/-- Method Validate of ReservedName. -/
def ReservedName.Validate (r : ReservedName) : Except String Unit :=
  if r.Name = "" then .error "ReservedName field must have a non-empty name" else .ok ()

/-- Method Validate of ReservedTagValue: always nil. -/
def ReservedTagValue.Validate (_ : ReservedTagValue) : Except String Unit :=
  .ok ()

/-- Method Validate of ReservedTagRange.  The first branch compares the
unsigned LowerTag against zero exactly as the source does; a uint8 is never
negative, so the branch never fires. -/
def ReservedTagRange.Validate (r : ReservedTagRange) : Except String Unit :=
  if r.LowerTag < 0 then
    .error "ReservedTagRange lower-tag must be greater-than-or-equal to zero"
  else if r.LowerTag ≥ r.UpperTag then
    .error "ReservedTagRange upper-tag must be greater-than lower-tag"
  else .ok ()

/-- Method Validate of CustomField.  The tag check compares the unsigned Tag
against zero exactly as the source does; a uint8 is never negative, so the
branch never fires. -/
def CustomField.Validate (c : CustomField) : Except String Unit :=
  if c.Name = "" then .error "CustomField name must have non-empty name"
  else if c.Tag < 0 then .error "CustomField must have positive integer for tag"
  else .ok ()

/-- Method Validate of CustomMapField.  KeyTyping is unsigned, so the
less-than-zero disjunct never holds. -/
def CustomMapField.Validate (c : CustomMapField) : Except String Unit :=
  if c.Name = "" then .error "CustomMapField name must have non-empty name"
  else if c.KeyTyping < 0 ∨ c.KeyTyping = DoubleType ∨ c.KeyTyping = FloatType
      ∨ c.KeyTyping = BytesType then
    .error ("Map field " ++ c.Name ++ " must use a scalar integral or string type for the map key")
  else if c.Rule = Repeated then .error "CustomMapField cannot use repeated rule"
  else .ok ()

/-- Method Validate of MapField.  KeyTyping and ValueTyping are unsigned, so
the less-than-zero tests never hold. -/
def MapField.Validate (m : MapField) : Except String Unit :=
  if m.Name = "" then .error "MapField must have a non-empty name"
  else if m.KeyTyping < 0 ∨ m.KeyTyping = DoubleType ∨ m.KeyTyping = FloatType
      ∨ m.KeyTyping = BytesType then
    .error ("Map field " ++ m.Name ++ " must use a scalar integral or string type for the map key")
  else if m.ValueTyping < 0 then
    .error ("Map field " ++ m.Name ++ " must have a type specified for the map value")
  else if m.Rule = Repeated then .error "MapField cannot use repeated rule"
  else .ok ()

/-- Duplicate-tag scan of Enum.Validate: walks the values in order keeping
the set of tags seen so far (the keys of the map the source builds) and
returns the name of the first value whose tag was already seen. -/
def dupScan : List TagType → List EnumValue → Option NameType
  | _, [] => none
  | seen, v :: vs => if seen.contains v.Tag then some v.Name else dupScan (v.Tag :: seen) vs

/-- Method Validate of Enum. -/
def Enum.Validate (e : Enum) : Except String Unit :=
  if e.Name = "" then .error "Enum must have a non-empty name"
  else if e.Values.length = 0 then .error "Enum must have non-empty set of values"
  else if e.AllowAlias = false then
    match dupScan [] e.Values with
    | some n =>
      .error ("Enum value has tag that is already in use while aliasing is not allowed: " ++ n)
    | none => .ok ()
  else .ok ()

/-- Method Validate of OneOf. -/
def OneOf.Validate (o : OneOf) : Except String Unit :=
  if o.Name = "" then .error "OneOf must have a non-empty name"
  else if o.Fields.length = 0 then .error "OneOf must have non-empty set of values"
  else .ok ()

/-- Dynamic dispatch of Validate over the Field interface. -/
def Field.Validate : Field → Except String Unit
  | .scalar f => f.Validate
  | .custom f => f.Validate
  | .map f => f.Validate
  | .customMap f => f.Validate

/-- Dynamic dispatch of Validate over the Reserved interface. -/
def Reserved.Validate : Reserved → Except String Unit
  | .name r => r.Validate
  | .tagValue r => r.Validate
  | .tagRange r => r.Validate

/-- Fail-fast loop over children: the value of a source loop that calls f on
each element in order and returns the first non-nil error. -/
def validateAll (f : α → Except String Unit) : List α → Except String Unit
  | [] => .ok ()
  | x :: xs =>
    match f x with
    | .error e => .error e
    | .ok () => validateAll f xs

/-- Method Validate of Message.  The source validates, in order: the name,
the fields, the nested messages, the reserved values, and the enums; it
does not validate the OneOfs.  The helper walks the nested message list
with the same fail-fast loop as the source. -/
def Message.Validate : Message → Except String Unit
  | .mk name _ msgs rsv flds _ enums =>
    if name = "" then .error "Message name cannot be empty"
    else
      match validateAll Field.Validate flds with
      | .error e => .error e
      | .ok () =>
        match go msgs with
        | .error e => .error e
        | .ok () =>
          match validateAll Reserved.Validate rsv with
          | .error e => .error e
          | .ok () => validateAll Enum.Validate enums
where
  /-- Fail-fast loop over the nested messages. -/
  go : List Message → Except String Unit
    | [] => .ok ()
    | m :: ms =>
      match Message.Validate m with
      | .error e => .error e
      | .ok () => go ms

/-- Method Validate of Spec: at least one message, then every message, then
every enum, failing fast. -/
def Spec.Validate (s : Spec) : Except String Unit :=
  if s.Messages.length = 0 then .error "Spec must contain at least one message"
  else
    match validateAll Message.Validate s.Messages with
    | .error e => .error e
    | .ok () => validateAll Enum.Validate s.Enums

/-! Composite writers for Message and Spec.  Writing an Enum reorders its
value list in place; the loops below therefore return the updated entity
lists alongside the text, exactly tracking which children had been
processed when an error stops a loop. -/

/-- Enum loop shared by Message.Write and Spec.Write: writes each enum at
the given level, combining each rendered block with the given prefix and
suffix, and returns the updated enums. -/
def writeEnumList (level : Nat) (pre post : String) : List Enum → Except String String × List Enum
  | [] => (.ok "", [])
  | e :: es =>
    match Enum.Write e level with
    | (.error err, e') => (.error err, e' :: es)
    | (.ok s, e') =>
      match writeEnumList level pre post es with
      | (.error err, es') => (.error err, e' :: es')
      | (.ok rest, es') => (.ok (pre ++ s ++ post ++ rest), e' :: es')

/-- Reserved loop of Message.Write: one indented reserved line per
declaration. -/
def reservedLines (level : Nat) : List Reserved → Except String String
  | [] => .ok ""
  | r :: rs =>
    match r.Write with
    | .error e => .error e
    | .ok v =>
      match reservedLines level rs with
      | .error e => .error e
      | .ok rest => .ok (indentLevel (level + 1) ++ "reserved " ++ v ++ ";\n" ++ rest)

/-- Field loop of Message.Write: one indented line per field. -/
def fieldLines (level : Nat) : List Field → Except String String
  | [] => .ok ""
  | f :: fs =>
    match f.Write with
    | .error e => .error e
    | .ok v =>
      match fieldLines level fs with
      | .error e => .error e
      | .ok rest => .ok (indentLevel (level + 1) ++ v ++ "\n" ++ rest)

/-- OneOf loop of Message.Write: each rendered block followed by a
newline. -/
def oneOfBlocks (level : Nat) : List OneOf → Except String String
  | [] => .ok ""
  | o :: os =>
    match o.Write (level + 1) with
    | .error e => .error e
    | .ok v =>
      match oneOfBlocks level os with
      | .error e => .error e
      | .ok rest => .ok (v ++ "\n" ++ rest)

/-- Method Write of Message at an indentation level.  The source validates
the receiver first and returns the validation error with no text; then it
writes nested messages, enums, reserved values, fields and oneofs in that
order.  The returned Message carries the in-place reordering of enum value
lists performed by the enum writes (of this message and, recursively, of
its nested messages). -/
def Message.Write : Message → Nat → Except String String × Message
  | .mk name comment msgs rsv flds oos enums, level =>
    match Message.Validate (.mk name comment msgs rsv flds oos enums) with
    | .error e => (.error e, .mk name comment msgs rsv flds oos enums)
    | .ok () =>
      let head := (if comment ≠ "" then indentLevel level ++ "// " ++ comment ++ "\n" else "")
        ++ indentLevel level ++ "message " ++ name ++ " \x7b\n"
      match go level msgs with
      | (.error e, msgs') => (.error e, .mk name comment msgs' rsv flds oos enums)
      | (.ok msgsStr, msgs') =>
        match writeEnumList (level + 1) "" "\n\n" enums with
        | (.error e, enums') => (.error e, .mk name comment msgs' rsv flds oos enums')
        | (.ok enumsStr, enums') =>
          match reservedLines level rsv with
          | .error e => (.error e, .mk name comment msgs' rsv flds oos enums')
          | .ok rsvStr =>
            let rsvBlock := if rsv.length > 0 then rsvStr ++ "\n" else ""
            match fieldLines level flds with
            | .error e => (.error e, .mk name comment msgs' rsv flds oos enums')
            | .ok fldsStr =>
              let fldsBlock := if flds.length > 0 then fldsStr ++ "\n" else ""
              match oneOfBlocks level oos with
              | .error e => (.error e, .mk name comment msgs' rsv flds oos enums')
              | .ok oosStr =>
                (.ok (head ++ msgsStr ++ enumsStr ++ rsvBlock ++ fldsBlock ++ oosStr
                    ++ indentLevel level ++ "\x7d"),
                  .mk name comment msgs' rsv flds oos enums')
where
  /-- Nested message loop: each rendered block followed by a blank line. -/
  go (level : Nat) : List Message → Except String String × List Message
    | [] => (.ok "", [])
    | m :: ms =>
      match Message.Write m (level + 1) with
      | (.error e, m') => (.error e, m' :: ms)
      | (.ok s, m') =>
        match go level ms with
        | (.error e, ms') => (.error e, m' :: ms')
        | (.ok rest, ms') => (.ok (s ++ "\n\n" ++ rest), m' :: ms')

/-- Message loop of Spec.Write: writes each top-level message at level zero,
each block framed by newlines, returning the updated messages. -/
def specMsgBlocks : List Message → Except String String × List Message
  | [] => (.ok "", [])
  | m :: ms =>
    match Message.Write m 0 with
    | (.error e, m') => (.error e, m' :: ms)
    | (.ok s, m') =>
      match specMsgBlocks ms with
      | (.error e, ms') => (.error e, m' :: ms')
      | (.ok rest, ms') => (.ok ("\n" ++ s ++ "\n" ++ rest), m' :: ms')

/-- Method Write of Spec: validates the whole document, then emits the
syntax header, the optional package and java_package lines, the import
lines, the top-level enum blocks and the top-level message blocks.  The
returned Spec carries the in-place enum reorderings performed by the
writes. -/
def Spec.Write (s : Spec) : Except String String × Spec :=
  match Spec.Validate s with
  | .error e => (.error e, s)
  | .ok () =>
    let header := "syntax = \"proto3\";\n"
      ++ (if s.Package.length > 0 then "package " ++ s.Package ++ ";\n" else "")
      ++ (if s.JavaPackage.length > 0 then "option java_package = \"" ++ s.JavaPackage ++ "\";\n"
          else "")
      ++ String.join (s.Imports.map (fun i => "import \"" ++ i ++ "\";\n"))
    match writeEnumList 0 "\n" "\n" s.Enums with
    | (.error e, enums') => (.error e, { s with Enums := enums' })
    | (.ok enumsStr, enums') =>
      match specMsgBlocks s.Messages with
      | (.error e, msgs') => (.error e, { s with Enums := enums', Messages := msgs' })
      | (.ok msgsStr, msgs') =>
        (.ok (header ++ enumsStr ++ msgsStr), { s with Enums := enums', Messages := msgs' })

/-! Definitions used by the proofs below: sortedness of index ranges of a
value list, the untouched-outside relation, and concrete entities used in
the closed theorems. -/

namespace GoSort

/-- Tag at position i of the value list. -/
def tagAt (l : List EnumValue) (i : Nat) : Nat :=
  (lget l i).Tag

/-- SortedRange l a b: the tags of positions a..b-1 are non-decreasing. -/
def SortedRange (l : List EnumValue) (a b : Nat) : Prop :=
  ∀ i j, a ≤ i → i < j → j < b → tagAt l i ≤ tagAt l j

/-- Untouched l l2 a b: outside [a, b) the lists agree pointwise. -/
def Untouched (l l2 : List EnumValue) (a b : Nat) : Prop :=
  ∀ k, k < a ∨ b ≤ k → lget l2 k = lget l k

/-- Positions a..b-1 of the value list, as a list. -/
def slice (l : List EnumValue) (a b : Nat) : List EnumValue :=
  (l.take b).drop a

end GoSort

/-- Enumeration exhibiting the instability of the Go sort: seven values,
two of which (A then B) share tag 2.  The shell pass with gap 6 swaps
positions 0 and 6 and the following insertion sort then leaves B before
A. -/
def stabilityEnum : Enum :=
  ⟨"E", [⟨"A", 2, ""⟩, ⟨"B", 2, ""⟩, ⟨"C", 3, ""⟩, ⟨"D", 4, ""⟩, ⟨"E", 5, ""⟩,
    ⟨"F", 6, ""⟩, ⟨"G", 1, ""⟩], true, ""⟩

/-- Document exhibiting the non-idempotence of rendering: a thirteen-value
enumeration with many duplicate tags.  The first render sorts the value
list with the Go quicksort (thirteen values exceed the shell-sort cutoff of
twelve); re-sorting the already-sorted list moves equal-tag values again,
so the second render differs. -/
def bigEnumSpec : Spec :=
  ⟨"", "", [], [Message.mk "M" "" [] [] [] [] []],
    [⟨"E",
      [⟨"a", 0, ""⟩, ⟨"b", 1, ""⟩, ⟨"c", 1, ""⟩, ⟨"d", 1, ""⟩, ⟨"e", 1, ""⟩, ⟨"f", 1, ""⟩,
       ⟨"g", 1, ""⟩, ⟨"h", 1, ""⟩, ⟨"i", 1, ""⟩, ⟨"j", 1, ""⟩, ⟨"k", 1, ""⟩, ⟨"l", 1, ""⟩,
       ⟨"m", 2, ""⟩], true, ""⟩]⟩

/-- SmallEnums for a Message: every enumeration of the message and of its
nested messages, recursively, has at most 12 values (the cutoff below which
the Go sort takes the shell-plus-insertion path). -/
def Message.SmallEnums : Message → Bool
  | .mk _ _ msgs _ _ _ enums =>
    enums.all (fun e => e.Values.length ≤ 12) && go msgs
where
  /-- Conjunction over the nested messages. -/
  go : List Message → Bool
    | [] => true
    | m :: ms => m.SmallEnums && go ms

/-- SmallEnums for a Spec: every enumeration anywhere in the document has at
most 12 values. -/
def Spec.SmallEnums (s : Spec) : Bool :=
  s.Enums.all (fun e => e.Values.length ≤ 12) && s.Messages.all Message.SmallEnums

/-! Basic lemmas about the leaf writers: none of them can fail. -/

/-- Every Field write returns a nil error. -/
theorem fieldWrite_ok (f : Field) : ∃ s, Field.Write f = .ok s := by
  cases f with
  | scalar f => exact ⟨_, rfl⟩
  | custom f => exact ⟨_, rfl⟩
  | map f => exact ⟨_, rfl⟩
  | customMap f => exact ⟨_, rfl⟩

/-- Every Reserved write returns a nil error. -/
theorem reservedWrite_ok (r : Reserved) : ∃ s, Reserved.Write r = .ok s := by
  cases r with
  | name r => exact ⟨_, rfl⟩
  | tagValue r => exact ⟨_, rfl⟩
  | tagRange r => exact ⟨_, rfl⟩

/-- The field loop of OneOf.Write never fails. -/
theorem oneOfFieldLines_ok (level : Nat) (fs : List Field) :
    ∃ s, oneOfFieldLines level fs = .ok s := by
  induction fs with
  | nil => exact ⟨_, rfl⟩
  | cons f fs ih =>
    obtain ⟨s, hs⟩ := fieldWrite_ok f
    obtain ⟨r, hr⟩ := ih
    simp only [oneOfFieldLines, hs, hr]
    exact ⟨_, rfl⟩

/-- Method Write of OneOf never fails (it performs no validation). -/
theorem oneOfWrite_ok (o : OneOf) (level : Nat) : ∃ s, o.Write level = .ok s := by
  obtain ⟨s, hs⟩ := oneOfFieldLines_ok level o.Fields
  simp only [OneOf.Write, hs]
  exact ⟨_, rfl⟩

/-- Method Write of Enum never fails (it performs no validation). -/
theorem enumWrite_ok (e : Enum) (level : Nat) : ∃ s, (e.Write level).1 = .ok s :=
  ⟨_, rfl⟩

/-- The reserved loop of Message.Write never fails. -/
theorem reservedLines_ok (level : Nat) (rs : List Reserved) :
    ∃ s, reservedLines level rs = .ok s := by
  induction rs with
  | nil => exact ⟨_, rfl⟩
  | cons r rs ih =>
    obtain ⟨v, hv⟩ := reservedWrite_ok r
    obtain ⟨rest, hrest⟩ := ih
    simp only [reservedLines, hv, hrest]
    exact ⟨_, rfl⟩

/-- The field loop of Message.Write never fails. -/
theorem fieldLines_ok (level : Nat) (fs : List Field) : ∃ s, fieldLines level fs = .ok s := by
  induction fs with
  | nil => exact ⟨_, rfl⟩
  | cons f fs ih =>
    obtain ⟨v, hv⟩ := fieldWrite_ok f
    obtain ⟨rest, hrest⟩ := ih
    simp only [fieldLines, hv, hrest]
    exact ⟨_, rfl⟩

/-- The oneof loop of Message.Write never fails. -/
theorem oneOfBlocks_ok (level : Nat) (os : List OneOf) : ∃ s, oneOfBlocks level os = .ok s := by
  induction os with
  | nil => exact ⟨_, rfl⟩
  | cons o os ih =>
    obtain ⟨v, hv⟩ := oneOfWrite_ok o (level + 1)
    obtain ⟨rest, hrest⟩ := ih
    simp only [oneOfBlocks, hv, hrest]
    exact ⟨_, rfl⟩

/-- The enum loop of Message.Write and Spec.Write never fails, and replaces
each enum by its sorted form. -/
theorem writeEnumList_eq (level : Nat) (pre post : String) (es : List Enum) :
    ∃ s, writeEnumList level pre post es = (.ok s, es.map Enum.sorted) := by
  induction es with
  | nil => exact ⟨_, rfl⟩
  | cons e es ih =>
    obtain ⟨rest, hrest⟩ := ih
    simp only [writeEnumList, Enum.Write, hrest, List.map]
    exact ⟨_, rfl⟩

/-- Characterization of the fail-fast loop: it succeeds exactly when every
element validates. -/
theorem validateAll_ok_iff (f : α → Except String Unit) (xs : List α) :
    validateAll f xs = .ok () ↔ ∀ x ∈ xs, f x = .ok () := by
  induction xs with
  | nil => simp [validateAll]
  | cons x xs ih =>
    cases hx : f x with
    | error e => simp [validateAll, hx]
    | ok u => cases u; simp [validateAll, hx, ih]

/-- Characterization of the nested-message loop of Message.Validate. -/
theorem msgValidateGo_ok_iff (ms : List Message) :
    Message.Validate.go ms = .ok () ↔ ∀ m ∈ ms, Message.Validate m = .ok () := by
  induction ms with
  | nil => simp [Message.Validate.go]
  | cons m ms ih =>
    cases hm : Message.Validate m with
    | error e => simp [Message.Validate.go, hm]
    | ok u => cases u; simp [Message.Validate.go, hm, ih]

/-- One-layer characterization of Message.Validate: the name is checked and
the fields, nested messages, reserved values and enums are validated; the
OneOfs are not consulted. -/
theorem msgValidate_ok_iff (name comment : String) (msgs : List Message)
    (rsv : List Reserved) (flds : List Field) (oos : List OneOf) (enums : List Enum) :
    Message.Validate (.mk name comment msgs rsv flds oos enums) = .ok () ↔
      name ≠ "" ∧ (∀ f ∈ flds, Field.Validate f = .ok ())
        ∧ (∀ m ∈ msgs, Message.Validate m = .ok ())
        ∧ (∀ r ∈ rsv, Reserved.Validate r = .ok ())
        ∧ (∀ e ∈ enums, Enum.Validate e = .ok ()) := by
  have hstruct : Message.Validate (.mk name comment msgs rsv flds oos enums) = .ok () ↔
      name ≠ "" ∧ validateAll Field.Validate flds = .ok ()
        ∧ Message.Validate.go msgs = .ok ()
        ∧ validateAll Reserved.Validate rsv = .ok ()
        ∧ validateAll Enum.Validate enums = .ok () := by
    rw [Message.Validate]
    by_cases hn : name = ""
    · simp [hn]
    · simp only [hn, if_false]
      cases hf : validateAll Field.Validate flds with
      | error e => simp [hn]
      | ok u =>
        cases u
        cases hg : Message.Validate.go msgs with
        | error e => simp [hn]
        | ok u =>
          cases u
          cases hr : validateAll Reserved.Validate rsv with
          | error e => simp [hn]
          | ok u => cases u; simp [hn]
  rw [hstruct, validateAll_ok_iff, msgValidateGo_ok_iff, validateAll_ok_iff,
    validateAll_ok_iff]

/-- Auxiliary induction (on a sizeOf bound) showing that writing a valid
message succeeds. -/
theorem msgWrite_ok_aux : ∀ n : Nat, ∀ m : Message, sizeOf m < n → ∀ level : Nat,
    Message.Validate m = .ok () → ∃ s m', Message.Write m level = (.ok s, m') := by
  intro n
  induction n with
  | zero => intro m hm; omega
  | succ n ih =>
    intro m hm level hval
    cases m with
    | mk name comment msgs rsv flds oos enums =>
      have hval' := hval
      rw [msgValidate_ok_iff] at hval'
      obtain ⟨hn1, hflds, hmsgs, hrsv, henums⟩ := hval'
      have hsz : ∀ x ∈ msgs, sizeOf x < n := by
        intro x hx
        have h1 : sizeOf x < sizeOf msgs := List.sizeOf_lt_of_mem hx
        have h2 : sizeOf msgs < sizeOf (Message.mk name comment msgs rsv flds oos enums) := by
          simp [Message.mk.sizeOf_spec]
          omega
        omega
      have hgo : ∀ ms : List Message, (∀ x ∈ ms, sizeOf x < n) →
          (∀ x ∈ ms, Message.Validate x = .ok ()) →
          ∃ s ms', Message.Write.go level ms = (.ok s, ms') := by
        intro ms
        induction ms with
        | nil => intro _ _; exact ⟨_, _, rfl⟩
        | cons x xs ihx =>
          intro hszs hvals
          obtain ⟨s1, x', hx'⟩ := ih x (hszs x (by simp)) (level + 1) (hvals x (by simp))
          obtain ⟨s2, xs', hxs'⟩ := ihx (fun y hy => hszs y (by simp [hy]))
            (fun y hy => hvals y (by simp [hy]))
          simp only [Message.Write.go, hx', hxs']
          exact ⟨_, _, rfl⟩
      obtain ⟨sgo, msgs', hgoEq⟩ := hgo msgs hsz hmsgs
      obtain ⟨sen, hen⟩ := writeEnumList_eq (level + 1) "" "\n\n" enums
      obtain ⟨srs, hrs⟩ := reservedLines_ok level rsv
      obtain ⟨sfl, hfl⟩ := fieldLines_ok level flds
      obtain ⟨soo, hoo⟩ := oneOfBlocks_ok level oos
      simp only [Message.Write, hval, hgoEq, hen, hrs, hfl, hoo]
      exact ⟨_, _, rfl⟩

/-- Writing a message that validates succeeds. -/
theorem msgWrite_ok (m : Message) (level : Nat) (h : Message.Validate m = .ok ()) :
    ∃ s m', Message.Write m level = (.ok s, m') :=
  msgWrite_ok_aux (sizeOf m + 1) m (by omega) level h

/-- The message loop of Spec.Write succeeds when every message validates. -/
theorem specMsgBlocks_ok (ms : List Message) (h : ∀ m ∈ ms, Message.Validate m = .ok ()) :
    ∃ s ms', specMsgBlocks ms = (.ok s, ms') := by
  induction ms with
  | nil => exact ⟨_, _, rfl⟩
  | cons m rest ih =>
    obtain ⟨s1, m', hm⟩ := msgWrite_ok m 0 (h m (by simp))
    obtain ⟨s2, rest', hrest⟩ := ih (fun x hx => h x (by simp [hx]))
    simp only [specMsgBlocks, hm, hrest]
    exact ⟨_, _, rfl⟩

/-- Characterization of Spec.Validate: a non-empty message list whose
members all validate, and enums that all validate. -/
theorem specValidate_ok_iff (s : Spec) :
    Spec.Validate s = .ok () ↔ s.Messages.length ≠ 0
      ∧ (∀ m ∈ s.Messages, Message.Validate m = .ok ())
      ∧ (∀ e ∈ s.Enums, Enum.Validate e = .ok ()) := by
  rw [Spec.Validate]
  by_cases h : s.Messages.length = 0
  · simp [h]
  · simp only [h, if_false]
    cases hm : validateAll Message.Validate s.Messages with
    | error e => simp [h, ← validateAll_ok_iff, hm]
    | ok u => cases u; simp [h, ← validateAll_ok_iff, hm]

/-! Claims. -/

/-- Claim C1: for every Document whose top-level message list is empty, the
document-level render returns the validation error and no text; for every
Document that validates (at least one valid message and no other defects),
render succeeds and returns a non-empty string. -/
theorem C1_document_render (s : Spec) :
    (s.Messages = [] → (Spec.Write s).1 = .error "Spec must contain at least one message")
      ∧ (Spec.Validate s = .ok () → ∃ out, (Spec.Write s).1 = .ok out ∧ out ≠ "") := by
  constructor
  · intro h
    have hv : Spec.Validate s = .error "Spec must contain at least one message" := by
      simp [Spec.Validate, h]
    simp [Spec.Write, hv]
  · intro hv
    have hmsgs : ∀ m ∈ s.Messages, Message.Validate m = .ok () :=
      ((specValidate_ok_iff s).mp hv).2.1
    obtain ⟨se, hen⟩ := writeEnumList_eq 0 "\n" "\n" s.Enums
    obtain ⟨sm, ms', hms⟩ := specMsgBlocks_ok s.Messages hmsgs
    simp only [Spec.Write, hv, hen, hms]
    refine ⟨_, rfl, ?_⟩
    intro h0
    have hlen := congrArg String.length h0
    have h19 : ("syntax = \"proto3\";\n").length = 19 := rfl
    simp only [String.length_append] at hlen
    rw [h19] at hlen
    simp at hlen

/-- Closed witness for C1 at a concrete empty document and a concrete valid
document. -/
theorem C1_document_render_witness :
    (Spec.Write ⟨"", "", [], [], []⟩).1 = .error "Spec must contain at least one message"
      ∧ ∃ out, (Spec.Write ⟨"", "", [], [Message.mk "M" "" [] [] [] [] []], []⟩).1 = .ok out
          ∧ out ≠ "" :=
  ⟨(C1_document_render ⟨"", "", [], [], []⟩).1 rfl,
    (C1_document_render ⟨"", "", [], [Message.mk "M" "" [] [] [] [] []], []⟩).2 rfl⟩

/-- Counterexample to claim C2 as stated: a message whose only defect is a
mutually-exclusive group that is invalid (empty name and zero member
fields) nevertheless validates, because Message.Validate never visits the
OneOfs. -/
theorem C2_counterexample :
    Message.Validate (Message.mk "M" "" [] [] [] [⟨"", [], ""⟩] []) = .ok ()
      ∧ OneOf.Validate ⟨"", [], ""⟩ = .error "OneOf must have a non-empty name" :=
  ⟨rfl, rfl⟩

/-- Claim C2 (amended): message validation succeeds exactly when the name is
non-empty and every child among the fields, nested messages, reserved
declarations and enumerations is valid; the mutually-exclusive groups are
not validated, so the characterization places no condition on them. -/
theorem C2_message_validation (m : Message) :
    Message.Validate m = .ok () ↔
      m.Name ≠ "" ∧ (∀ f ∈ m.Fields, Field.Validate f = .ok ())
        ∧ (∀ mm ∈ m.Messages, Message.Validate mm = .ok ())
        ∧ (∀ r ∈ m.ReservedValues, Reserved.Validate r = .ok ())
        ∧ (∀ e ∈ m.Enums, Enum.Validate e = .ok ()) := by
  cases m with
  | mk name comment msgs rsv flds oos enums =>
    exact msgValidate_ok_iff name comment msgs rsv flds oos enums

/-- Counterexample to claim C3 as stated: an enumeration with an empty name
and zero values, and a group with an empty name and zero member fields, are
both rejected by standalone validation yet render successfully, because
Enum.Write and OneOf.Write never call Validate. -/
theorem C3_counterexample :
    Enum.Validate ⟨"", [], false, ""⟩ = .error "Enum must have a non-empty name"
      ∧ (Enum.Write ⟨"", [], false, ""⟩ 0).1 = .ok "enum  \x7b\n\x7d"
      ∧ OneOf.Validate ⟨"", [], ""⟩ = .error "OneOf must have a non-empty name"
      ∧ OneOf.Write ⟨"", [], ""⟩ 0 = .ok "oneof  \x7b\n\x7d" :=
  ⟨rfl, rfl, rfl, rfl⟩

/-- Claim C3 (amended): the document and message renders validate first and
on failure return the validation error with no text, but the enumeration
and group renders perform no validation and always succeed, even on inputs
standalone validation rejects. -/
theorem C3_render_validation (s : Spec) (m : Message) (e : Enum) (o : OneOf) (lvl : Nat)
    (err : String) :
    (Spec.Validate s = .error err → (Spec.Write s).1 = .error err)
      ∧ (Message.Validate m = .error err → (Message.Write m lvl).1 = .error err)
      ∧ (∃ t, (Enum.Write e lvl).1 = .ok t) ∧ (∃ t, OneOf.Write o lvl = .ok t) := by
  refine ⟨?_, ?_, enumWrite_ok e lvl, oneOfWrite_ok o lvl⟩
  · intro h
    simp [Spec.Write, h]
  · intro h
    cases m with
    | mk name comment msgs rsv flds oos enums => simp [Message.Write, h]

/-- Closed witness for C3 at concrete invalid entities. -/
theorem C3_render_validation_witness :
    (Spec.Write ⟨"", "", [], [], []⟩).1 = .error "Spec must contain at least one message"
      ∧ (Message.Write (Message.mk "" "" [] [] [] [] []) 0).1
          = .error "Message name cannot be empty"
      ∧ (∃ t, (Enum.Write ⟨"", [], false, ""⟩ 0).1 = .ok t)
      ∧ (∃ t, OneOf.Write ⟨"", [], ""⟩ 0 = .ok t) := by
  obtain ⟨h1, h2, h3, h4⟩ := C3_render_validation ⟨"", "", [], [], []⟩
    (Message.mk "" "" [] [] [] [] []) ⟨"", [], false, ""⟩ ⟨"", [], ""⟩ 0
    "Spec must contain at least one message"
  refine ⟨h1 rfl, ?_, h3, h4⟩
  obtain ⟨-, h2', -, -⟩ := C3_render_validation ⟨"", "", [], [], []⟩
    (Message.mk "" "" [] [] [] [] []) ⟨"", [], false, ""⟩ ⟨"", [], ""⟩ 0
    "Message name cannot be empty"
  exact h2' rfl

/-- Characterization of MapField.Validate.  The unsigned KeyTyping and
ValueTyping are never negative, so only the three listed key types and the
repeated rule can be rejected. -/
theorem mapFieldValidate_ok_iff (m : MapField) :
    MapField.Validate m = .ok () ↔ m.Name ≠ "" ∧ m.KeyTyping ≠ DoubleType
      ∧ m.KeyTyping ≠ FloatType ∧ m.KeyTyping ≠ BytesType ∧ m.Rule ≠ Repeated := by
  rw [MapField.Validate]
  split_ifs with h1 h2 h3 h4
  · simp [h1]
  · simp only [DoubleType, FloatType, BytesType] at h2
    rcases h2 with h2 | h2 | h2 | h2
    · exact absurd h2 (Nat.not_lt_zero _)
    all_goals simp [h2, DoubleType, FloatType, BytesType]
  · exact absurd h3 (Nat.not_lt_zero _)
  · simp [h4, Repeated]
  · simp only [DoubleType, FloatType, BytesType, Repeated] at h2 h4 ⊢
    push_neg at h2
    simp [h1, h4, h2.2.1, h2.2.2.1, h2.2.2.2]

/-- Characterization of CustomMapField.Validate, parallel to the MapField
case. -/
theorem customMapFieldValidate_ok_iff (c : CustomMapField) :
    CustomMapField.Validate c = .ok () ↔ c.Name ≠ "" ∧ c.KeyTyping ≠ DoubleType
      ∧ c.KeyTyping ≠ FloatType ∧ c.KeyTyping ≠ BytesType ∧ c.Rule ≠ Repeated := by
  rw [CustomMapField.Validate]
  split_ifs with h1 h2 h3
  · simp [h1]
  · simp only [DoubleType, FloatType, BytesType] at h2
    rcases h2 with h2 | h2 | h2 | h2
    · exact absurd h2 (Nat.not_lt_zero _)
    all_goals simp [h2, DoubleType, FloatType, BytesType]
  · simp [h3, Repeated]
  · simp only [DoubleType, FloatType, BytesType, Repeated] at h2 h3 ⊢
    push_neg at h2
    simp [h1, h3, h2.2.1, h2.2.2.1, h2.2.2.2]

/-- Counterexample to claim C5 as stated: the key type value 15 lies outside
the declared type enumeration (0..14, as the empty keyword shows), yet both
map variants accept it, because the only key-type checks are the three
equality tests and a vacuous negativity test on an unsigned value. -/
theorem C5_counterexample :
    MapField.Validate ⟨"m", 1, NoneRule, "", 15, StringType⟩ = .ok ()
      ∧ CustomMapField.Validate ⟨"m", 1, NoneRule, "", 15, "T"⟩ = .ok ()
      ∧ FieldType.Write 15 = "" :=
  ⟨rfl, rfl, rfl⟩

/-- Claim C5 (amended): for both map variants, validation succeeds exactly
when the name is non-empty, the key type is none of the floating-point
types and not the byte-sequence type, and the rule is not the repeated
rule; key type values outside the declared enumeration are accepted. -/
theorem C5_map_field_validation (m : MapField) (c : CustomMapField) :
    (MapField.Validate m = .ok () ↔ m.Name ≠ "" ∧ m.KeyTyping ≠ DoubleType
      ∧ m.KeyTyping ≠ FloatType ∧ m.KeyTyping ≠ BytesType ∧ m.Rule ≠ Repeated)
    ∧ (CustomMapField.Validate c = .ok () ↔ c.Name ≠ "" ∧ c.KeyTyping ≠ DoubleType
      ∧ c.KeyTyping ≠ FloatType ∧ c.KeyTyping ≠ BytesType ∧ c.Rule ≠ Repeated) :=
  ⟨mapFieldValidate_ok_iff m, customMapFieldValidate_ok_iff c⟩

/-- Characterization of the duplicate scan of Enum.Validate: it reports
nothing exactly when the tags are pairwise distinct and avoid the seen
set. -/
theorem dupScan_none_iff (vs : List EnumValue) : ∀ seen,
    dupScan seen vs = none ↔
      ((vs.map (fun v => v.Tag)).Nodup ∧ ∀ v ∈ vs, v.Tag ∉ seen) := by
  induction vs with
  | nil => simp [dupScan]
  | cons v vs ih =>
    intro seen
    by_cases hc : seen.contains v.Tag = true
    · have hmem : v.Tag ∈ seen := by simpa using hc
      rw [dupScan, if_pos hc]
      constructor
      · intro h
        exact absurd h (by simp)
      · rintro ⟨-, hall⟩
        exact absurd hmem (hall v (by simp))
    · have hmem : v.Tag ∉ seen := by simpa using hc
      rw [dupScan, if_neg hc, ih (v.Tag :: seen)]
      constructor
      · rintro ⟨hnd, hall⟩
        refine ⟨?_, ?_⟩
        · simp only [List.map_cons, List.nodup_cons, List.mem_map]
          refine ⟨?_, hnd⟩
          rintro ⟨w, hw, hweq⟩
          exact absurd (by simp [hweq] : w.Tag ∈ v.Tag :: seen) (hall w hw)
        · intro w hw
          rcases List.mem_cons.mp hw with rfl | hw'
          · exact hmem
          · intro hin
            exact absurd (by simp [hin] : w.Tag ∈ v.Tag :: seen) (hall w hw')
      · rintro ⟨hnd, hall⟩
        simp only [List.map_cons, List.nodup_cons, List.mem_map] at hnd
        refine ⟨hnd.2, ?_⟩
        intro w hw hin
        rcases List.mem_cons.mp hin with heq | hin'
        · exact hnd.1 ⟨w, hw, heq⟩
        · exact absurd hin' (hall w (List.mem_cons_of_mem v hw))

/-- Characterization of Enum.Validate: non-empty name, at least one value,
and pairwise-distinct tags unless aliasing is allowed. -/
theorem enumValidate_ok_iff (e : Enum) :
    Enum.Validate e = .ok () ↔ e.Name ≠ "" ∧ e.Values ≠ []
      ∧ (e.AllowAlias = true ∨ (e.Values.map (fun v => v.Tag)).Nodup) := by
  rw [Enum.Validate]
  split_ifs with h1 h2 h3
  · simp [h1]
  · rw [List.length_eq_zero] at h2
    simp [h1, h2]
  · cases hd : dupScan [] e.Values with
    | some n =>
      have : ¬ (e.Values.map (fun v => v.Tag)).Nodup := by
        intro hnd
        have := (dupScan_none_iff e.Values []).mpr ⟨hnd, by simp⟩
        rw [hd] at this
        exact absurd this (by simp)
      simp [h1, h3, this, List.length_eq_zero.not.mp h2]
    | none =>
      have := (dupScan_none_iff e.Values []).mp hd
      simp [h1, h3, this.1, List.length_eq_zero.not.mp h2]
  · have h3' : e.AllowAlias = true := by
      cases hA : e.AllowAlias
      · exact absurd hA h3
      · rfl
    simp [h1, h3', List.length_eq_zero.not.mp h2]

/-- Counterexample to claim C6 as stated: an enumeration with two values
sharing a tag and alias-allowed true does not always pass validation; with
an empty name the identical enumeration still fails. -/
theorem C6_counterexample :
    Enum.Validate ⟨"", [⟨"A", 1, ""⟩, ⟨"B", 1, ""⟩], true, ""⟩
      = .error "Enum must have a non-empty name" :=
  rfl

/-- Claim C6 (amended): an enumeration with alias-allowed false containing
two values that share a tag fails validation; the identical enumeration
with alias-allowed true passes validation provided its name is
non-empty. -/
theorem C6_enum_alias (name : String) (vals : List EnumValue) (comment : String)
    (hdup : ¬ (vals.map (fun v => v.Tag)).Nodup) :
    Enum.Validate ⟨name, vals, false, comment⟩ ≠ .ok ()
      ∧ (name ≠ "" → Enum.Validate ⟨name, vals, true, comment⟩ = .ok ()) := by
  have hne : vals ≠ [] := by
    rintro rfl
    exact hdup (by simp)
  constructor
  · intro h
    rw [enumValidate_ok_iff] at h
    obtain ⟨-, -, h | h⟩ := h
    · exact absurd h (by simp)
    · exact hdup h
  · intro hn
    rw [enumValidate_ok_iff]
    exact ⟨hn, hne, Or.inl rfl⟩

/-- Closed witness for C6 at a concrete two-value enumeration with a
duplicated tag. -/
theorem C6_enum_alias_witness :
    Enum.Validate ⟨"E", [⟨"A", 1, ""⟩, ⟨"B", 1, ""⟩], false, ""⟩ ≠ .ok ()
      ∧ Enum.Validate ⟨"E", [⟨"A", 1, ""⟩, ⟨"B", 1, ""⟩], true, ""⟩ = .ok () := by
  have h := C6_enum_alias "E" [⟨"A", 1, ""⟩, ⟨"B", 1, ""⟩] "" (by decide)
  exact ⟨h.1, h.2 (by decide)⟩

/-- Counterexample to claim C7 as stated: the tag type is unsigned, so a
lower bound written as -1 wraps to 255 and is rejected by the range
comparison with the upper bound, not by the lower-bound check, whose error
is never produced. -/
theorem C7_counterexample :
    ReservedTagRange.Validate ⟨255, 0⟩
        = .error "ReservedTagRange upper-tag must be greater-than lower-tag"
      ∧ "ReservedTagRange upper-tag must be greater-than lower-tag"
          ≠ "ReservedTagRange lower-tag must be greater-than-or-equal to zero" :=
  ⟨rfl, by decide⟩

/-- Claim C7 (amended): reserved-range validation succeeds exactly when the
lower bound is strictly below the upper bound; the explicit lower-bound
check never fires on the unsigned tag type, so no input is rejected with
the lower-bound error. -/
theorem C7_reserved_range (r : ReservedTagRange) :
    (ReservedTagRange.Validate r = .ok () ↔ r.LowerTag < r.UpperTag)
      ∧ ReservedTagRange.Validate r
          ≠ .error "ReservedTagRange lower-tag must be greater-than-or-equal to zero" := by
  rw [ReservedTagRange.Validate]
  split_ifs with h1 h2
  · exact absurd h1 (Nat.not_lt_zero _)
  · constructor
    · constructor
      · intro h
        exact absurd h (by simp)
      · intro h
        exact absurd h2 (not_le.mpr h)
    · intro h
      have := Except.error.inj h
      exact absurd this (by decide)
  · constructor
    · simp only [ge_iff_le, not_le] at h2
      simp [h2]
    · simp

/-- Claim C9: every scalar-type value outside the fifteen named constants
renders as the empty keyword rather than an error, and a scalar field
carrying such a type renders successfully, producing exactly the text of a
custom field whose type token is the empty string. -/
theorem C9_unknown_type_token (t : FieldType) (h : 14 < t) :
    FieldType.Write t = ""
      ∧ ∀ (name : NameType) (tag : TagType) (rule : FieldRule) (comment : String),
        ScalarField.Write ⟨name, tag, rule, comment, t⟩
            = CustomField.Write ⟨name, tag, rule, comment, ""⟩
          ∧ ∃ s, ScalarField.Write ⟨name, tag, rule, comment, t⟩ = .ok s := by
  have ht : FieldType.Write t = "" := by
    obtain ⟨k, hk⟩ := Nat.exists_eq_add_of_lt h
    have hk2 : t = k + 15 := by rw [hk]; ring
    rw [hk2]
    rfl
  refine ⟨ht, ?_⟩
  intro name tag rule comment
  refine ⟨?_, ⟨_, rfl⟩⟩
  simp [ScalarField.Write, CustomField.Write, ht]

/-- Closed witness for C9 at type value 15 (the first value beyond the
table). -/
theorem C9_unknown_type_token_witness :
    FieldType.Write 15 = ""
      ∧ ScalarField.Write ⟨"x", 1, NoneRule, "", 15⟩ = CustomField.Write ⟨"x", 1, NoneRule, "", ""⟩
      ∧ ∃ s, ScalarField.Write ⟨"x", 1, NoneRule, "", 15⟩ = .ok s := by
  have h := C9_unknown_type_token 15 (by decide)
  exact ⟨h.1, (h.2 "x" 1 NoneRule "").1, (h.2 "x" 1 NoneRule "").2⟩

/-- Claim C10: every leaf entity write (the three reserved shapes and the
four field shapes) returns a string and a nil error on every input; leaf
rendering never validates, so it succeeds even where standalone validation
rejects. -/
theorem C10_leaf_render_total (r : Reserved) (f : Field) :
    (∃ s, Reserved.Write r = .ok s) ∧ (∃ s, Field.Write f = .ok s) :=
  ⟨reservedWrite_ok r, fieldWrite_ok f⟩

/-- Counterexample to claim C4 as stated: rendering stabilityEnum emits the
equal-tag values B and A in the opposite of their input order (the full
rendered text is computed below), so input order among equal tags is not
preserved. -/
theorem C4_counterexample :
    ((Enum.Write stabilityEnum 0).2).Values.filter (fun v => v.Tag == 2)
        ≠ stabilityEnum.Values.filter (fun v => v.Tag == 2)
      ∧ (Enum.Write stabilityEnum 0).1
          = .ok ("enum E \x7b\n  option allow_alias = true;\n  G = 1;\n  B = 2;\n  A = 2;\n"
            ++ "  C = 3;\n  D = 4;\n  E = 5;\n  F = 6;\n\x7d") := by
  constructor
  · decide
  · rfl

/-- Counterexample to claim C8 as stated: bigEnumSpec is a valid document,
yet rendering it twice in sequence (the second render seeing the value
lists sorted in place by the first) yields different output strings. -/
theorem C8_counterexample :
    Spec.Validate bigEnumSpec = .ok ()
      ∧ ∃ out1 out2, (Spec.Write bigEnumSpec).1 = .ok out1
          ∧ (Spec.Write (Spec.Write bigEnumSpec).2).1 = .ok out2
          ∧ out1 ≠ out2 := by
  refine ⟨rfl, _, _, rfl, rfl, ?_⟩
  decide

namespace GoSort

/-- Swapping preserves the length. -/
theorem length_lswap (l : List EnumValue) (i j : Nat) : (lswap l i j).length = l.length := by
  simp [lswap]

/-- Reading after a swap of in-range positions. -/
theorem lget_lswap (l : List EnumValue) (i j k : Nat) (hi : i < l.length) (hj : j < l.length) :
    lget (lswap l i j) k =
      if k = j then lget l i else if k = i then lget l j else lget l k := by
  unfold lswap lget
  rw [List.getD_eq_getElem?_getD, List.getElem?_set, List.getElem?_set]
  by_cases hkj : j = k
  · subst hkj
    simp [List.length_set, hj]
  · by_cases hki : i = k
    · subst hki
      simp [Ne.symm hkj, hkj, hi, List.getD_eq_getElem?_getD]
    · simp [hkj, hki, Ne.symm hkj, Ne.symm hki, List.getD_eq_getElem?_getD]

/-- Reading at the first swapped position. -/
theorem lget_lswap_left (l : List EnumValue) (i j : Nat) (hi : i < l.length)
    (hj : j < l.length) (hne : i ≠ j) : lget (lswap l i j) i = lget l j := by
  rw [lget_lswap l i j i hi hj]
  simp [hne]

/-- Reading at the second swapped position. -/
theorem lget_lswap_right (l : List EnumValue) (i j : Nat) (hi : i < l.length)
    (hj : j < l.length) : lget (lswap l i j) j = lget l i := by
  rw [lget_lswap l i j j hi hj]
  simp

/-- Reading away from both swapped positions. -/
theorem lget_lswap_other (l : List EnumValue) (i j k : Nat) (hi : i < l.length)
    (hj : j < l.length) (hki : k ≠ i) (hkj : k ≠ j) : lget (lswap l i j) k = lget l k := by
  rw [lget_lswap l i j k hi hj]
  simp [hki, hkj]

/-- Moving the element at position k to the head while the old head takes
position k is a permutation. -/
theorem headSwap_perm : ∀ (xs : List EnumValue) (k : Nat) (x : EnumValue), k < xs.length →
    List.Perm (xs.getD k default :: xs.set k x) (x :: xs) := by
  intro xs
  induction xs with
  | nil => intro k x hk; simp at hk
  | cons y ys ih =>
    intro k x hk
    match k with
    | 0 => exact List.Perm.swap x y ys
    | m + 1 =>
      have h1 : List.Perm (ys.getD m default :: y :: ys.set m x)
          (y :: ys.getD m default :: ys.set m x) :=
        List.Perm.swap y (ys.getD m default) (ys.set m x)
      have h2 : List.Perm (y :: ys.getD m default :: ys.set m x) (y :: x :: ys) :=
        (ih m x (by simpa using hk)).cons y
      have h3 : List.Perm (y :: x :: ys) (x :: y :: ys) := List.Perm.swap x y ys
      exact (h1.trans h2).trans h3

/-- An in-range swap is a permutation. -/
theorem lswap_perm : ∀ (l : List EnumValue) (i j : Nat), i < l.length → j < l.length →
    List.Perm (lswap l i j) l := by
  intro l
  induction l with
  | nil => intro i j hi; simp at hi
  | cons x xs ih =>
    intro i j hi hj
    match i, j with
    | 0, 0 => simp [lswap, lget]
    | 0, m + 1 =>
      have : lswap (x :: xs) 0 (m + 1) = xs.getD m default :: xs.set m x := by
        simp [lswap, lget]
      rw [this]
      exact headSwap_perm xs m x (by simpa using hj)
    | n + 1, 0 =>
      have : lswap (x :: xs) (n + 1) 0 = xs.getD n default :: xs.set n x := by
        simp [lswap, lget]
      rw [this]
      exact headSwap_perm xs n x (by simpa using hi)
    | n + 1, m + 1 =>
      have : lswap (x :: xs) (n + 1) (m + 1) = x :: lswap xs n m := by
        simp [lswap, lget]
      rw [this]
      exact (ih n m (by simpa using hi) (by simpa using hj)).cons x

/-- Specification of the inner insertion loop.  With the range [a, i]
sorted except possibly at position j, and the element at j below all later
positions up to i, the loop produces a list sorted on [a, i+1), touching
nothing outside, permuting the whole, and preserving the length. -/
theorem insInner_spec (a i : Nat) : ∀ (j : Nat) (l : List EnumValue), a ≤ j → j ≤ i →
    i < l.length →
    (∀ p q, a ≤ p → p < q → q ≤ i → p ≠ j → q ≠ j → tagAt l p ≤ tagAt l q) →
    (∀ q, j < q → q ≤ i → tagAt l j ≤ tagAt l q) →
    (insInner a l j).length = l.length ∧ List.Perm (insInner a l j) l
      ∧ Untouched l (insInner a l j) a (i + 1)
      ∧ SortedRange (insInner a l j) a (i + 1) := by
  intro j
  induction j with
  | zero =>
    intro l ha _ _ hA hB
    refine ⟨rfl, List.Perm.refl l, fun k _ => rfl, ?_⟩
    intro p q hp hpq hq
    rcases Nat.eq_zero_or_pos p with rfl | hppos
    · exact hB q hpq (by omega)
    · exact hA p q hp hpq (by omega) (by omega) (by omega)
  | succ m ih =>
    intro l ha hji hil hA hB
    rw [insInner]
    by_cases hcond : a < m + 1 ∧ less l (m + 1) m = true
    · rw [if_pos hcond]
      obtain ⟨ham, hless⟩ := hcond
      have hlt : tagAt l (m + 1) < tagAt l m := by
        simpa [less, tagAt] using hless
      have hm1 : m + 1 < l.length := by omega
      have hm : m < l.length := by omega
      have hlen2 : (lswap l (m + 1) m).length = l.length := length_lswap l (m + 1) m
      have hget : ∀ k, lget (lswap l (m + 1) m) k =
          if k = m then lget l (m + 1) else if k = m + 1 then lget l m else lget l k :=
        fun k => lget_lswap l (m + 1) m k hm1 hm
      have htag : ∀ k, tagAt (lswap l (m + 1) m) k =
          if k = m then tagAt l (m + 1) else if k = m + 1 then tagAt l m else tagAt l k := by
        intro k
        unfold tagAt
        rw [hget k]
        by_cases h1 : k = m
        · simp [h1]
        · by_cases h2 : k = m + 1 <;> simp [h1, h2]
      have htagm : tagAt (lswap l (m + 1) m) m = tagAt l (m + 1) := by
        rw [htag m]
        simp
      have htagm1 : tagAt (lswap l (m + 1) m) (m + 1) = tagAt l m := by
        rw [htag (m + 1)]
        simp
      have htagother : ∀ k, k ≠ m → k ≠ m + 1 → tagAt (lswap l (m + 1) m) k = tagAt l k := by
        intro k h1 h2
        rw [htag k]
        simp [h1, h2]
      have hA2 : ∀ p q, a ≤ p → p < q → q ≤ i → p ≠ m → q ≠ m →
          tagAt (lswap l (m + 1) m) p ≤ tagAt (lswap l (m + 1) m) q := by
        intro p q hp hpq hq hpm hqm
        by_cases hq1 : q = m + 1
        · subst hq1
          have hpm1 : p < m := by omega
          rw [htagm1, htagother p hpm (by omega)]
          exact hA p m hp hpm1 (by omega) (by omega) (by omega)
        · by_cases hp1 : p = m + 1
          · subst hp1
            rw [htagm1, htagother q hqm hq1]
            exact hA m q (by omega) (by omega) hq (by omega) hq1
          · rw [htagother p hpm hp1, htagother q hqm hq1]
            exact hA p q hp hpq hq hp1 hq1
      have hB2 : ∀ q, m < q → q ≤ i → tagAt (lswap l (m + 1) m) m ≤
          tagAt (lswap l (m + 1) m) q := by
        intro q hmq hq
        rw [htagm]
        by_cases hq1 : q = m + 1
        · subst hq1
          rw [htagm1]
          omega
        · rw [htagother q (by omega) hq1]
          exact hB q (by omega) hq
      obtain ⟨ihlen, ihperm, ihout, ihsort⟩ :=
        ih (lswap l (m + 1) m) (by omega) (by omega) (by omega) hA2 hB2
      refine ⟨ihlen.trans hlen2, ihperm.trans (lswap_perm l (m + 1) m hm1 hm), ?_, ihsort⟩
      intro k hk
      rw [ihout k hk, hget k]
      have hkm : k ≠ m := by omega
      have hkm1 : k ≠ m + 1 := by omega
      simp [hkm, hkm1]
    · rw [if_neg hcond]
      refine ⟨rfl, List.Perm.refl l, fun k _ => rfl, ?_⟩
      intro p q hp hpq hq
      rcases Classical.em (a < m + 1) with ham | ham
      · have hnl : ¬ less l (m + 1) m = true := fun h => hcond ⟨ham, h⟩
        have hle : tagAt l m ≤ tagAt l (m + 1) := by
          simpa [less, tagAt] using hnl
        have hq' : q ≤ i := by omega
        by_cases hq1 : q = m + 1
        · subst hq1
          by_cases hp1 : p = m
          · subst hp1
            exact hle
          · have : tagAt l p ≤ tagAt l m :=
              hA p m hp (by omega) (by omega) (by omega) (by omega)
            exact this.trans hle
        · by_cases hp1 : p = m + 1
          · subst hp1
            exact hB q hpq hq'
          · exact hA p q hp hpq hq' hp1 hq1
      · have haj : a = m + 1 := by omega
        by_cases hp1 : p = m + 1
        · subst hp1
          exact hB q hpq (by omega)
        · exact hA p q hp hpq (by omega) hp1 (by omega)

/-- Specification of the outer insertion loop: starting from a sorted
prefix [a, i), it sorts [a, b) whenever the iteration bound covers the
remaining distance. -/
theorem insOuter_spec (a b : Nat) : ∀ (n i : Nat) (l : List EnumValue), b ≤ i + n →
    b ≤ l.length → a + 1 ≤ i → SortedRange l a i →
    (insOuter a b l i n).length = l.length ∧ List.Perm (insOuter a b l i n) l
      ∧ Untouched l (insOuter a b l i n) a b
      ∧ SortedRange (insOuter a b l i n) a b := by
  intro n
  induction n with
  | zero =>
    intro i l hbi hbl hai hsort
    exact ⟨rfl, .refl l, fun k _ => rfl, fun p q hp hpq hq => hsort p q hp hpq (by omega)⟩
  | succ n ihn =>
    intro i l hbi hbl hai hsort
    rw [insOuter]
    by_cases hib : i < b
    · rw [if_pos hib]
      obtain ⟨hlen, hperm, hout, hsorted⟩ := insInner_spec a i i l (by omega) le_rfl
        (by omega)
        (fun p q hp hpq hq hpne hqne => hsort p q hp hpq (by omega))
        (fun q hq1 hq2 => absurd (hq1.trans_le hq2) (by omega))
      obtain ⟨ihlen, ihperm, ihout, ihsort⟩ := ihn (i + 1) (insInner a l i) (by omega)
        (by omega) (by omega) hsorted
      refine ⟨ihlen.trans hlen, ihperm.trans hperm, ?_, ihsort⟩
      intro k hk
      rw [ihout k hk]
      exact hout k (by omega)
    · rw [if_neg hib]
      exact ⟨rfl, .refl l, fun k _ => rfl, fun p q hp hpq hq => hsort p q hp hpq (by omega)⟩

/-- Specification of insertionSort on a range. -/
theorem insertionSort_spec (l : List EnumValue) (a b : Nat) (hb : b ≤ l.length) :
    (insertionSort l a b).length = l.length ∧ List.Perm (insertionSort l a b) l
      ∧ Untouched l (insertionSort l a b) a b
      ∧ SortedRange (insertionSort l a b) a b := by
  unfold insertionSort
  exact insOuter_spec a b b (a + 1) l (by omega) hb le_rfl
    (fun p q hp hpq hq => by omega)

/-- Specification of the shell pass: a permutation confined to [a, b). -/
theorem shellLoop_spec (a b : Nat) : ∀ (n i : Nat) (l : List EnumValue), a + 6 ≤ i →
    b ≤ l.length →
    (shellLoop a b l i n).length = l.length ∧ List.Perm (shellLoop a b l i n) l
      ∧ Untouched l (shellLoop a b l i n) a b := by
  intro n
  induction n with
  | zero => intro i l hi hbl; exact ⟨rfl, .refl l, fun k _ => rfl⟩
  | succ n ihn =>
    intro i l hi hbl
    rw [shellLoop]
    by_cases hib : i < b
    · rw [if_pos hib]
      by_cases hsw : less l i (i - 6) = true
      · rw [if_pos hsw]
        have hi6 : i - 6 < l.length := by omega
        have hil : i < l.length := by omega
        obtain ⟨ihlen, ihperm, ihout⟩ := ihn (i + 1) (lswap l i (i - 6)) (by omega)
          (by rw [length_lswap]; omega)
        refine ⟨ihlen.trans (length_lswap l i (i - 6)),
          ihperm.trans (lswap_perm l i (i - 6) hil hi6), ?_⟩
        intro k hk
        rw [ihout k hk]
        exact lget_lswap_other l i (i - 6) k hil hi6 (by omega) (by omega)
      · rw [if_neg hsw]
        exact ihn (i + 1) l (by omega) hbl
    · rw [if_neg hib]
      exact ⟨rfl, .refl l, fun k _ => rfl⟩

/-- On a range of at most 12 elements, quickSort is the shell pass followed
by insertionSort (or the identity on ranges of at most one element),
whatever the depth allowance. -/
theorem quickSort_small_eq (l : List EnumValue) (a b d : Nat) (h : ¬ b - a > 12) :
    quickSort l a b d =
      if b - a > 1 then insertionSort (shellLoop a b l (a + 6) b) a b else l := by
  cases d with
  | zero => rw [quickSort, if_neg h]
  | succ d => rw [quickSort, if_neg h]

/-- Specification of sortList on lists of at most 12 values: a sorted
permutation. -/
theorem sortList_small_spec (l : List EnumValue) (h : l.length ≤ 12) :
    (sortList l).length = l.length ∧ List.Perm (sortList l) l
      ∧ SortedRange (sortList l) 0 l.length := by
  rw [sortList, quickSort_small_eq l 0 l.length _ (by omega)]
  by_cases h1 : l.length - 0 > 1
  · rw [if_pos h1]
    obtain ⟨slen, sperm, sout⟩ := shellLoop_spec 0 l.length l.length 6 l (by omega) le_rfl
    obtain ⟨ilen, iperm, iout, isort⟩ := insertionSort_spec (shellLoop 0 l.length l 6 l.length)
      0 l.length (by omega)
    refine ⟨ilen.trans slen, iperm.trans sperm, ?_⟩
    intro p q hp hpq hq
    exact isort p q hp hpq (by omega)
  · rw [if_neg h1]
    exact ⟨rfl, .refl l, fun p q hp hpq hq => by omega⟩

/-- The inner insertion loop does nothing when its guard fails at once. -/
theorem insInner_id (a : Nat) (l : List EnumValue) (j : Nat)
    (h : ¬ (a < j ∧ less l j (j - 1) = true)) : insInner a l j = l := by
  cases j with
  | zero => rfl
  | succ m => rw [insInner, if_neg (by simpa using h)]

/-- The outer insertion loop is the identity on a sorted range. -/
theorem insOuter_sorted_id (a b : Nat) : ∀ (n i : Nat) (l : List EnumValue), a + 1 ≤ i →
    SortedRange l a b → insOuter a b l i n = l := by
  intro n
  induction n with
  | zero => intro i l _ _; rfl
  | succ n ihn =>
    intro i l hai hsort
    rw [insOuter]
    by_cases hib : i < b
    · rw [if_pos hib]
      have hless : ¬ less l i (i - 1) = true := by
        have h2 : tagAt l (i - 1) ≤ tagAt l i := hsort (i - 1) i (by omega) (by omega) hib
        simp only [less, tagAt, decide_eq_true_eq]
        exact not_lt.mpr h2
      rw [insInner_id a l i (by simp [hless])]
      exact ihn (i + 1) l (by omega) hsort
    · rw [if_neg hib]

/-- The shell pass is the identity on a sorted range. -/
theorem shellLoop_sorted_id (a b : Nat) : ∀ (n i : Nat) (l : List EnumValue), a + 6 ≤ i →
    SortedRange l a b → shellLoop a b l i n = l := by
  intro n
  induction n with
  | zero => intro i l _ _; rfl
  | succ n ihn =>
    intro i l hai hsort
    rw [shellLoop]
    by_cases hib : i < b
    · rw [if_pos hib]
      have hless : ¬ less l i (i - 6) = true := by
        have h2 : tagAt l (i - 6) ≤ tagAt l i := hsort (i - 6) i (by omega) (by omega) hib
        simp only [less, tagAt, decide_eq_true_eq]
        exact not_lt.mpr h2
      rw [if_neg hless]
      exact ihn (i + 1) l (by omega) hsort
    · rw [if_neg hib]

/-- On lists of at most 12 values, sorting an already-sorted list does
nothing. -/
theorem sortList_sorted_id (l : List EnumValue) (h : l.length ≤ 12)
    (hsort : SortedRange l 0 l.length) : sortList l = l := by
  rw [sortList, quickSort_small_eq l 0 l.length _ (by omega)]
  by_cases h1 : l.length - 0 > 1
  · rw [if_pos h1, shellLoop_sorted_id 0 l.length l.length 6 l (by omega) hsort]
    unfold insertionSort
    exact insOuter_sorted_id 0 l.length l.length 1 l le_rfl hsort
  · rw [if_neg h1]

/-- On lists of at most 12 values, the Go sort is idempotent. -/
theorem sortList_idem_small (l : List EnumValue) (h : l.length ≤ 12) :
    sortList (sortList l) = sortList l := by
  obtain ⟨hlen, hperm, hsort⟩ := sortList_small_spec l h
  exact sortList_sorted_id (sortList l) (by omega) (by rw [hlen]; exact hsort)

/-- Reading an in-range position through getElem. -/
theorem lget_eq_getElem (l : List EnumValue) (k : Nat) (h : k < l.length) :
    lget l k = l[k] := by
  simp [lget, List.getD_eq_getElem?_getD, List.getElem?_eq_getElem h]

/-- Option-level reading of a position. -/
theorem getElem?_eq_lget (l : List EnumValue) (k : Nat) (h : k < l.length) :
    l[k]? = some (lget l k) := by
  rw [lget_eq_getElem l k h]
  exact List.getElem?_eq_getElem h

/-- Membership in a slice comes from an in-range position. -/
theorem mem_slice (l : List EnumValue) (a b : Nat) (x : EnumValue) :
    x ∈ slice l a b ↔ ∃ k, a ≤ k ∧ k < b ∧ k < l.length ∧ lget l k = x := by
  rw [slice, List.mem_iff_getElem?]
  constructor
  · rintro ⟨n, hn⟩
    rw [List.getElem?_drop, List.getElem?_take] at hn
    by_cases hlt : a + n < b
    · rw [if_pos hlt] at hn
      have hl : a + n < l.length := by
        by_contra hge
        rw [List.getElem?_eq_none (by omega)] at hn
        exact Option.noConfusion hn
      refine ⟨a + n, by omega, hlt, hl, ?_⟩
      rw [getElem?_eq_lget l (a + n) hl] at hn
      exact Option.some.inj hn
    · rw [if_neg hlt] at hn
      exact Option.noConfusion hn
  · rintro ⟨k, hak, hkb, hkl, rfl⟩
    refine ⟨k - a, ?_⟩
    rw [List.getElem?_drop, List.getElem?_take, if_pos (by omega)]
    have hidx : a + (k - a) = k := by omega
    rw [hidx]
    exact getElem?_eq_lget l k hkl

/-- Decomposition of a list around a slice. -/
theorem slice_decomp (l : List EnumValue) (a b : Nat) (hab : a ≤ b) (_hb : b ≤ l.length) :
    l = l.take a ++ slice l a b ++ l.drop b := by
  rw [slice]
  have h1 : (l.take b).take a ++ (l.take b).drop a = l.take b := List.take_append_drop a _
  have h2 : (l.take b).take a = l.take a := by
    rw [List.take_take, min_eq_left hab]
  rw [← h2, h1, List.take_append_drop]

/-- Pointwise agreement below a gives equal prefixes. -/
theorem take_eq_of_untouched (l l2 : List EnumValue) (a b : Nat) (hlen : l2.length = l.length)
    (hu : Untouched l l2 a b) : l2.take a = l.take a := by
  apply List.ext_getElem?
  intro n
  rw [List.getElem?_take, List.getElem?_take]
  by_cases hn : n < a
  · rw [if_pos hn, if_pos hn]
    by_cases hl : n < l.length
    · rw [getElem?_eq_lget l n hl, getElem?_eq_lget l2 n (by omega), hu n (Or.inl hn)]
    · rw [List.getElem?_eq_none (by omega), List.getElem?_eq_none (by omega)]
  · rw [if_neg hn, if_neg hn]

/-- Pointwise agreement from b on gives equal suffixes. -/
theorem drop_eq_of_untouched (l l2 : List EnumValue) (a b : Nat) (hlen : l2.length = l.length)
    (hu : Untouched l l2 a b) : l2.drop b = l.drop b := by
  apply List.ext_getElem?
  intro n
  rw [List.getElem?_drop, List.getElem?_drop]
  by_cases hl : b + n < l.length
  · rw [getElem?_eq_lget l _ hl, getElem?_eq_lget l2 _ (by omega), hu (b + n) (Or.inr (by omega))]
  · rw [List.getElem?_eq_none (by omega), List.getElem?_eq_none (by omega)]

/-- A whole-list permutation that touches only [a, b) permutes the slice. -/
theorem perm_slice_of_untouched (l l2 : List EnumValue) (a b : Nat) (hlen : l2.length = l.length)
    (hperm : List.Perm l2 l) (hu : Untouched l l2 a b) (hab : a ≤ b) (hb : b ≤ l.length) :
    List.Perm (slice l2 a b) (slice l a b) := by
  have hd2 : l2 = l2.take a ++ slice l2 a b ++ l2.drop b :=
    slice_decomp l2 a b hab (by omega)
  have hd1 : l = l.take a ++ slice l a b ++ l.drop b := slice_decomp l a b hab hb
  have htake := take_eq_of_untouched l l2 a b hlen hu
  have hdrop := drop_eq_of_untouched l l2 a b hlen hu
  rw [hd2, hd1, htake, hdrop] at hperm
  rw [List.perm_append_right_iff] at hperm
  rw [List.perm_append_left_iff] at hperm
  exact hperm

/-- Boolean Less unfolded to the tag comparison. -/
theorem less_iff (l : List EnumValue) (i j : Nat) :
    less l i j = true ↔ tagAt l i < tagAt l j := by
  simp [less, tagAt]

/-- Facts about one swap: length, permutation, and untouched other
positions. -/
theorem lswap_facts (l : List EnumValue) (i j : Nat) (hi : i < l.length) (hj : j < l.length) :
    (lswap l i j).length = l.length ∧ List.Perm (lswap l i j) l
      ∧ ∀ k, k ≠ i → k ≠ j → lget (lswap l i j) k = lget l k :=
  ⟨length_lswap l i j, lswap_perm l i j hi hj,
    fun k h1 h2 => lget_lswap_other l i j k hi hj h1 h2⟩

/-- Structural facts about medianOfThree: length, permutation, and
untouched positions other than the three operands. -/
theorem medianOfThree_perm (l : List EnumValue) (m1 m0 m2 : Nat) (h1 : m1 < l.length)
    (h0 : m0 < l.length) (h2 : m2 < l.length) :
    (medianOfThree l m1 m0 m2).length = l.length
      ∧ List.Perm (medianOfThree l m1 m0 m2) l
      ∧ ∀ k, k ≠ m0 → k ≠ m1 → k ≠ m2 → lget (medianOfThree l m1 m0 m2) k = lget l k := by
  rw [medianOfThree]
  by_cases c1 : less l m1 m0 = true
  all_goals simp only [c1, if_true, if_false, Bool.false_eq_true]
  case pos =>
    obtain ⟨len1, perm1, out1⟩ := lswap_facts l m1 m0 h1 h0
    by_cases c2 : less (lswap l m1 m0) m2 m1 = true
    all_goals simp only [c2, if_true, if_false, Bool.false_eq_true]
    case pos =>
      obtain ⟨len2, perm2, out2⟩ := lswap_facts (lswap l m1 m0) m2 m1 (by omega) (by omega)
      by_cases c3 : less (lswap (lswap l m1 m0) m2 m1) m1 m0 = true
      all_goals simp only [c3, if_true, if_false, Bool.false_eq_true]
      case pos =>
        obtain ⟨len3, perm3, out3⟩ :=
          lswap_facts (lswap (lswap l m1 m0) m2 m1) m1 m0 (by omega) (by omega)
        refine ⟨by omega, (perm3.trans perm2).trans perm1, ?_⟩
        intro k k0 k1 k2
        rw [out3 k k1 k0, out2 k k2 k1, out1 k k1 k0]
      case neg =>
        refine ⟨by omega, perm2.trans perm1, ?_⟩
        intro k k0 k1 k2
        rw [out2 k k2 k1, out1 k k1 k0]
    case neg =>
      exact ⟨len1, perm1, fun k k0 k1 k2 => out1 k k1 k0⟩
  case neg =>
    by_cases c2 : less l m2 m1 = true
    all_goals simp only [c2, if_true, if_false, Bool.false_eq_true]
    case pos =>
      obtain ⟨len2, perm2, out2⟩ := lswap_facts l m2 m1 h2 h1
      by_cases c3 : less (lswap l m2 m1) m1 m0 = true
      all_goals simp only [c3, if_true, if_false, Bool.false_eq_true]
      case pos =>
        obtain ⟨len3, perm3, out3⟩ := lswap_facts (lswap l m2 m1) m1 m0 (by omega) (by omega)
        refine ⟨by omega, perm3.trans perm2, ?_⟩
        intro k k0 k1 k2
        rw [out3 k k1 k0, out2 k k2 k1]
      case neg =>
        exact ⟨len2, perm2, fun k k0 k1 k2 => out2 k k2 k1⟩
    case neg =>
      refine ⟨by trivial, List.Perm.refl l, ?_⟩
      intro k hk0 hk1 hk2
      trivial

/-- Order facts about medianOfThree on three distinct positions: it moves
the median of the three values into position m1, with the smallest at m0
and the largest at m2. -/
theorem medianOfThree_order (l : List EnumValue) (m1 m0 m2 : Nat) (h1 : m1 < l.length)
    (h0 : m0 < l.length) (h2 : m2 < l.length) (d10 : m1 ≠ m0) (d12 : m1 ≠ m2)
    (d02 : m0 ≠ m2) :
    tagAt (medianOfThree l m1 m0 m2) m0 ≤ tagAt (medianOfThree l m1 m0 m2) m1
      ∧ tagAt (medianOfThree l m1 m0 m2) m1 ≤ tagAt (medianOfThree l m1 m0 m2) m2 := by
  have e1 : ∀ (li : List EnumValue), li.length = l.length →
      tagAt (lswap li m1 m0) m1 = tagAt li m0 := by
    intro li hli
    unfold tagAt
    rw [lget_lswap_left li m1 m0 (by omega) (by omega) d10]
  rw [medianOfThree]
  by_cases c1 : less l m1 m0 = true
  all_goals simp only [c1, if_true, if_false, Bool.false_eq_true]
  all_goals rw [less_iff] at c1
  case pos =>
    have t1m1 : tagAt (lswap l m1 m0) m1 = tagAt l m0 := by
      unfold tagAt
      rw [lget_lswap_left l m1 m0 h1 h0 d10]
    have t1m0 : tagAt (lswap l m1 m0) m0 = tagAt l m1 := by
      unfold tagAt
      rw [lget_lswap_right l m1 m0 h1 h0]
    have t1m2 : tagAt (lswap l m1 m0) m2 = tagAt l m2 := by
      unfold tagAt
      rw [lget_lswap_other l m1 m0 m2 h1 h0 (Ne.symm d12) (Ne.symm d02)]
    by_cases c2 : less (lswap l m1 m0) m2 m1 = true
    all_goals simp only [c2, if_true, if_false, Bool.false_eq_true]
    all_goals rw [less_iff] at c2
    case pos =>
      have hlen1 : (lswap l m1 m0).length = l.length := length_lswap l m1 m0
      have t2m1 : tagAt (lswap (lswap l m1 m0) m2 m1) m1 = tagAt (lswap l m1 m0) m2 := by
        unfold tagAt
        rw [lget_lswap_right (lswap l m1 m0) m2 m1 (by omega) (by omega)]
      have t2m2 : tagAt (lswap (lswap l m1 m0) m2 m1) m2 = tagAt (lswap l m1 m0) m1 := by
        unfold tagAt
        rw [lget_lswap_left (lswap l m1 m0) m2 m1 (by omega) (by omega) (Ne.symm d12)]
      have t2m0 : tagAt (lswap (lswap l m1 m0) m2 m1) m0 = tagAt (lswap l m1 m0) m0 := by
        unfold tagAt
        rw [lget_lswap_other (lswap l m1 m0) m2 m1 m0 (by omega) (by omega) d02 (Ne.symm d10)]
      by_cases c3 : less (lswap (lswap l m1 m0) m2 m1) m1 m0 = true
      all_goals simp only [c3, if_true, if_false, Bool.false_eq_true]
      all_goals rw [less_iff] at c3
      case pos =>
        have hlen2 : (lswap (lswap l m1 m0) m2 m1).length = l.length := by
          rw [length_lswap, length_lswap]
        have t3m1 : tagAt (lswap (lswap (lswap l m1 m0) m2 m1) m1 m0) m1
            = tagAt (lswap (lswap l m1 m0) m2 m1) m0 := by
          unfold tagAt
          rw [lget_lswap_left _ m1 m0 (by omega) (by omega) d10]
        have t3m0 : tagAt (lswap (lswap (lswap l m1 m0) m2 m1) m1 m0) m0
            = tagAt (lswap (lswap l m1 m0) m2 m1) m1 := by
          unfold tagAt
          rw [lget_lswap_right _ m1 m0 (by omega) (by omega)]
        have t3m2 : tagAt (lswap (lswap (lswap l m1 m0) m2 m1) m1 m0) m2
            = tagAt (lswap (lswap l m1 m0) m2 m1) m2 := by
          unfold tagAt
          rw [lget_lswap_other _ m1 m0 m2 (by omega) (by omega) (Ne.symm d12) (Ne.symm d02)]
        rw [t3m1, t3m0, t3m2, t2m1, t2m2, t2m0, t1m1, t1m0, t1m2] at *
        rw [t2m1, t2m0] at c3
        rw [t1m1, t1m2] at c2
        omega
      case neg =>
        rw [t2m1, t2m0, t2m2, t1m1, t1m0, t1m2] at *
        rw [t2m1, t2m0] at c3
        rw [t1m1, t1m2] at c2
        omega
    case neg =>
      rw [t1m1, t1m0, t1m2] at *
      rw [t1m1, t1m2] at c2
      omega
  case neg =>
    by_cases c2 : less l m2 m1 = true
    all_goals simp only [c2, if_true, if_false, Bool.false_eq_true]
    all_goals rw [less_iff] at c2
    case pos =>
      have t2m1 : tagAt (lswap l m2 m1) m1 = tagAt l m2 := by
        unfold tagAt
        rw [lget_lswap_right l m2 m1 h2 h1]
      have t2m2 : tagAt (lswap l m2 m1) m2 = tagAt l m1 := by
        unfold tagAt
        rw [lget_lswap_left l m2 m1 h2 h1 (Ne.symm d12)]
      have t2m0 : tagAt (lswap l m2 m1) m0 = tagAt l m0 := by
        unfold tagAt
        rw [lget_lswap_other l m2 m1 m0 h2 h1 d02 (Ne.symm d10)]
      by_cases c3 : less (lswap l m2 m1) m1 m0 = true
      all_goals simp only [c3, if_true, if_false, Bool.false_eq_true]
      all_goals rw [less_iff] at c3
      case pos =>
        have hlen2 : (lswap l m2 m1).length = l.length := length_lswap l m2 m1
        have t3m1 : tagAt (lswap (lswap l m2 m1) m1 m0) m1 = tagAt (lswap l m2 m1) m0 := by
          unfold tagAt
          rw [lget_lswap_left _ m1 m0 (by omega) (by omega) d10]
        have t3m0 : tagAt (lswap (lswap l m2 m1) m1 m0) m0 = tagAt (lswap l m2 m1) m1 := by
          unfold tagAt
          rw [lget_lswap_right _ m1 m0 (by omega) (by omega)]
        have t3m2 : tagAt (lswap (lswap l m2 m1) m1 m0) m2 = tagAt (lswap l m2 m1) m2 := by
          unfold tagAt
          rw [lget_lswap_other _ m1 m0 m2 (by omega) (by omega) (Ne.symm d12) (Ne.symm d02)]
        rw [t3m1, t3m0, t3m2]
        rw [t2m1, t2m0] at c3
        rw [t2m1, t2m0, t2m2]
        omega
      case neg =>
        rw [t2m1, t2m0] at c3
        rw [t2m1, t2m0, t2m2]
        omega
    case neg =>
      omega

/-- Specification of the initial scan of doPivot: it advances over elements
strictly below the pivot value. -/
theorem scanA_spec (pivot c : Nat) (l : List EnumValue) : ∀ (n a : Nat), c ≤ a + n → a ≤ c →
    a ≤ scanA pivot c l a n ∧ scanA pivot c l a n ≤ c
      ∧ (∀ k, a ≤ k → k < scanA pivot c l a n → tagAt l k < tagAt l pivot)
      ∧ (scanA pivot c l a n < c →
          ¬ tagAt l (scanA pivot c l a n) < tagAt l pivot) := by
  intro n
  induction n with
  | zero =>
    intro a hfuel hac
    have hae : a = c := by omega
    rw [scanA]
    exact ⟨le_rfl, hac, fun k h1 h2 => absurd (h1.trans_lt h2) (by omega), fun h => by omega⟩
  | succ n ihn =>
    intro a hfuel hac
    rw [scanA]
    by_cases hcond : a < c ∧ less l a pivot = true
    · rw [if_pos hcond]
      obtain ⟨hlt, hless⟩ := hcond
      rw [less_iff] at hless
      obtain ⟨ih1, ih2, ih3, ih4⟩ := ihn (a + 1) (by omega) (by omega)
      refine ⟨by omega, ih2, ?_, ih4⟩
      intro k h1 h2
      rcases Nat.eq_or_lt_of_le h1 with rfl | h1'
      · exact hless
      · exact ih3 k (by omega) h2
    · rw [if_neg hcond]
      refine ⟨le_rfl, hac, fun k h1 h2 => absurd (h1.trans_lt h2) (by omega), ?_⟩
      intro hlt hcontra
      exact hcond ⟨hlt, (less_iff l a pivot).mpr hcontra⟩

/-- Specification of the forward scan of the partition loop: it advances
over elements not above the pivot value. -/
theorem scanB_spec (pivot c : Nat) (l : List EnumValue) : ∀ (n b : Nat), c ≤ b + n → b ≤ c →
    b ≤ scanB pivot c l b n ∧ scanB pivot c l b n ≤ c
      ∧ (∀ k, b ≤ k → k < scanB pivot c l b n → tagAt l k ≤ tagAt l pivot)
      ∧ (scanB pivot c l b n < c →
          tagAt l pivot < tagAt l (scanB pivot c l b n)) := by
  intro n
  induction n with
  | zero =>
    intro b hfuel hbc
    rw [scanB]
    exact ⟨le_rfl, hbc, fun k h1 h2 => absurd (h1.trans_lt h2) (by omega), fun h => by omega⟩
  | succ n ihn =>
    intro b hfuel hbc
    rw [scanB]
    by_cases hcond : b < c ∧ ¬ less l pivot b = true
    · rw [if_pos hcond]
      obtain ⟨hlt, hless⟩ := hcond
      rw [less_iff] at hless
      obtain ⟨ih1, ih2, ih3, ih4⟩ := ihn (b + 1) (by omega) (by omega)
      refine ⟨by omega, ih2, ?_, ih4⟩
      intro k h1 h2
      rcases Nat.eq_or_lt_of_le h1 with rfl | h1'
      · omega
      · exact ih3 k (by omega) h2
    · rw [if_neg hcond]
      refine ⟨le_rfl, hbc, fun k h1 h2 => absurd (h1.trans_lt h2) (by omega), ?_⟩
      intro hlt
      by_contra hcontra
      exact hcond ⟨hlt, fun hl => hcontra ((less_iff l pivot b).mp hl)⟩

/-- Specification of the backward scan of the partition loop: it retreats
over elements strictly above the pivot value. -/
theorem scanC_spec (pivot b : Nat) (l : List EnumValue) : ∀ (c : Nat), b ≤ c →
    scanC pivot b l c ≤ c ∧ b ≤ scanC pivot b l c
      ∧ (∀ k, scanC pivot b l c ≤ k → k < c → tagAt l pivot < tagAt l k)
      ∧ (b < scanC pivot b l c →
          ¬ tagAt l pivot < tagAt l (scanC pivot b l c - 1)) := by
  intro c
  induction c with
  | zero =>
    intro hbc
    rw [scanC]
    exact ⟨le_rfl, hbc, fun k h1 h2 => absurd (h1.trans_lt h2) (by omega), fun h => by omega⟩
  | succ c ihc =>
    intro hbc
    rw [scanC]
    by_cases hcond : b < c + 1 ∧ less l pivot c = true
    · rw [if_pos hcond]
      obtain ⟨hlt, hless⟩ := hcond
      rw [less_iff] at hless
      obtain ⟨ih1, ih2, ih3, ih4⟩ := ihc (by omega)
      refine ⟨by omega, ih2, ?_, ih4⟩
      intro k h1 h2
      rcases Nat.eq_or_lt_of_le (Nat.lt_succ_iff.mp h2) with rfl | h2'
      · exact hless
      · exact ih3 k h1 h2'
    · rw [if_neg hcond]
      refine ⟨le_rfl, by omega, fun k h1 h2 => absurd (h1.trans_lt h2) (by omega), ?_⟩
      intro hlt
      have : ¬ less l pivot c = true := fun h => hcond ⟨by omega, h⟩
      rw [less_iff] at this
      simpa using this

/-- Specification of the main partition loop of doPivot.  Given a low
region below b already at most the pivot value (measured from the fixed
left mark bLo) and a high region from c on strictly above it, the loop
returns b2 = c2 with the regions extended to meet there. -/
theorem partLoop_spec (pivot hiM bLo : Nat) : ∀ (n : Nat) (l : List EnumValue) (b c : Nat),
    c - b < n →
    pivot < b → bLo ≤ b → b ≤ c → c ≤ hiM → hiM < l.length →
    (∀ k, bLo ≤ k → k < b → tagAt l k ≤ tagAt l pivot) →
    (∀ k, c ≤ k → k < hiM → tagAt l pivot < tagAt l k) →
    ∃ l2 b2 c2, partLoop pivot l b c n = (l2, b2, c2)
      ∧ b2 = c2 ∧ b ≤ b2 ∧ c2 ≤ c
      ∧ l2.length = l.length ∧ List.Perm l2 l ∧ Untouched l l2 b c
      ∧ (∀ k, bLo ≤ k → k < b2 → tagAt l2 k ≤ tagAt l2 pivot)
      ∧ (∀ k, c2 ≤ k → k < hiM → tagAt l2 pivot < tagAt l2 k)
      ∧ tagAt l2 pivot = tagAt l pivot := by
  intro n
  induction n with
  | zero => intro l b c hfuel; omega
  | succ n ihn =>
    intro l b c hfuel hpb hlb hbc hchi hhil hlow hhigh
    obtain ⟨sb1, sb2, sb3, sb4⟩ := scanB_spec pivot c l c b (by omega) hbc
    set b1 := scanB pivot c l b c with hb1
    obtain ⟨sc1, sc2, sc3, sc4⟩ := scanC_spec pivot b1 l c sb2
    set c1 := scanC pivot b1 l c with hc1
    have hlow1 : ∀ k, bLo ≤ k → k < b1 → tagAt l k ≤ tagAt l pivot := by
      intro k h1 h2
      by_cases hkb : k < b
      · exact hlow k h1 hkb
      · exact sb3 k (by omega) h2
    have hhigh1 : ∀ k, c1 ≤ k → k < hiM → tagAt l pivot < tagAt l k := by
      intro k h1 h2
      by_cases hkc : k < c
      · exact sc3 k h1 hkc
      · exact hhigh k (by omega) h2
    rw [partLoop]
    by_cases hexit : b1 ≥ c1
    · rw [if_pos hexit]
      have hbe : b1 = c1 := by omega
      exact ⟨l, b1, c1, rfl, hbe, sb1, sc1, rfl, List.Perm.refl l, fun k _ => rfl,
        hlow1, hhigh1, rfl⟩
    · rw [if_neg hexit]
      push_neg at hexit
      have hb1c : tagAt l pivot < tagAt l b1 := sb4 (by omega)
      have hc1b : ¬ tagAt l pivot < tagAt l (c1 - 1) := sc4 (by omega)
      have hbne : b1 ≠ c1 - 1 := by
        intro he
        rw [he] at hb1c
        exact hc1b hb1c
      have hb1lt : b1 < c1 - 1 := by omega
      have hc1l : c1 - 1 < l.length := by omega
      have hb1l : b1 < l.length := by omega
      have hpl : pivot < l.length := by omega
      set l1 := lswap l b1 (c1 - 1) with hl1
      have hlen1 : l1.length = l.length := length_lswap l b1 (c1 - 1)
      have hperm1 : List.Perm l1 l := lswap_perm l b1 (c1 - 1) hb1l hc1l
      have hget1 : ∀ k, k ≠ b1 → k ≠ c1 - 1 → lget l1 k = lget l k :=
        fun k h1 h2 => lget_lswap_other l b1 (c1 - 1) k hb1l hc1l h1 h2
      have htagb1 : tagAt l1 b1 = tagAt l (c1 - 1) := by
        unfold tagAt
        rw [lget_lswap_left l b1 (c1 - 1) hb1l hc1l hbne]
      have htagc1 : tagAt l1 (c1 - 1) = tagAt l b1 := by
        unfold tagAt
        rw [lget_lswap_right l b1 (c1 - 1) hb1l hc1l]
      have htagother : ∀ k, k ≠ b1 → k ≠ c1 - 1 → tagAt l1 k = tagAt l k := by
        intro k h1 h2
        unfold tagAt
        rw [hget1 k h1 h2]
      have htagpivot : tagAt l1 pivot = tagAt l pivot :=
        htagother pivot (by omega) (by omega)
      have hlow2 : ∀ k, bLo ≤ k → k < b1 + 1 → tagAt l1 k ≤ tagAt l1 pivot := by
        intro k h1 h2
        rw [htagpivot]
        by_cases hk1 : k = b1
        · rw [hk1, htagb1]
          omega
        · rw [htagother k hk1 (by omega)]
          exact hlow1 k h1 (by omega)
      have hhigh2 : ∀ k, c1 - 1 ≤ k → k < hiM → tagAt l1 pivot < tagAt l1 k := by
        intro k h1 h2
        rw [htagpivot]
        by_cases hk1 : k = c1 - 1
        · rw [hk1, htagc1]
          exact hb1c
        · rw [htagother k (by omega) hk1]
          exact hhigh1 k (by omega) h2
      obtain ⟨l2, b2, c2, hrec, hb2c2, hb2, hc2, hlen2, hperm2, hout2, hlowf, hhighf, hpivf⟩ :=
        ihn l1 (b1 + 1) (c1 - 1) (by omega) (by omega) (by omega) (by omega) (by omega)
          (by omega) hlow2 hhigh2
      refine ⟨l2, b2, c2, ?_, hb2c2, by omega, by omega, hlen2.trans hlen1,
        hperm2.trans hperm1, ?_, hlowf, hhighf, hpivf.trans htagpivot⟩
      · rw [hrec]
      · intro k hk
        rw [hout2 k (by omega), hget1 k (by omega) (by omega)]

/-- Specification of the backward scan of the protect loop: b retreats over
elements not below the pivot value. -/
theorem protScanB_spec (pivot a : Nat) (l : List EnumValue) : ∀ (b : Nat), a ≤ b →
    a ≤ protScanB pivot a l b ∧ protScanB pivot a l b ≤ b
      ∧ (∀ k, protScanB pivot a l b ≤ k → k < b → tagAt l pivot ≤ tagAt l k)
      ∧ (a < protScanB pivot a l b →
          tagAt l (protScanB pivot a l b - 1) < tagAt l pivot) := by
  intro b
  induction b with
  | zero =>
    intro hab
    rw [protScanB]
    exact ⟨hab, le_rfl, fun k h1 h2 => absurd (h1.trans_lt h2) (by omega), fun h => by omega⟩
  | succ b ihb =>
    intro hab
    rw [protScanB]
    by_cases hcond : a < b + 1 ∧ ¬ less l b pivot = true
    · rw [if_pos hcond]
      obtain ⟨hlt, hless⟩ := hcond
      rw [less_iff] at hless
      obtain ⟨ih1, ih2, ih3, ih4⟩ := ihb (by omega)
      refine ⟨ih1, by omega, ?_, ih4⟩
      intro k h1 h2
      rcases Nat.eq_or_lt_of_le (Nat.lt_succ_iff.mp h2) with rfl | h2'
      · omega
      · exact ih3 k h1 h2'
    · rw [if_neg hcond]
      refine ⟨by omega, le_rfl, fun k h1 h2 => absurd (h1.trans_lt h2) (by omega), ?_⟩
      intro hlt
      have : less l b pivot = true := by
        by_contra hc
        exact hcond ⟨by omega, hc⟩
      rw [less_iff] at this
      simpa using this

/-- Specification of the forward scan of the protect loop: a advances over
elements strictly below the pivot value. -/
theorem protScanA_spec (pivot b : Nat) (l : List EnumValue) : ∀ (n a : Nat), b ≤ a + n →
    a ≤ b →
    a ≤ protScanA pivot b l a n ∧ protScanA pivot b l a n ≤ b
      ∧ (∀ k, a ≤ k → k < protScanA pivot b l a n → tagAt l k < tagAt l pivot)
      ∧ (protScanA pivot b l a n < b →
          ¬ tagAt l (protScanA pivot b l a n) < tagAt l pivot) := by
  intro n
  induction n with
  | zero =>
    intro a hfuel hab
    rw [protScanA]
    exact ⟨le_rfl, hab, fun k h1 h2 => absurd (h1.trans_lt h2) (by omega), fun h => by omega⟩
  | succ n ihn =>
    intro a hfuel hab
    rw [protScanA]
    by_cases hcond : a < b ∧ less l a pivot = true
    · rw [if_pos hcond]
      obtain ⟨hlt, hless⟩ := hcond
      rw [less_iff] at hless
      obtain ⟨ih1, ih2, ih3, ih4⟩ := ihn (a + 1) (by omega) (by omega)
      refine ⟨by omega, ih2, ?_, ih4⟩
      intro k h1 h2
      rcases Nat.eq_or_lt_of_le h1 with rfl | h1'
      · exact hless
      · exact ih3 k (by omega) h2
    · rw [if_neg hcond]
      refine ⟨le_rfl, hab, fun k h1 h2 => absurd (h1.trans_lt h2) (by omega), ?_⟩
      intro hlt hcontra
      exact hcond ⟨hlt, (less_iff l a pivot).mpr hcontra⟩

/-- Specification of the protect loop of doPivot: it moves the pivot-equal
elements of the low region to its right end, extending the equal gap
[b, cGap) leftward while keeping the low region at most the pivot value. -/
theorem protLoop_spec (pivot aLo cGap : Nat) : ∀ (n : Nat) (l : List EnumValue) (a b : Nat),
    b - a < n →
    pivot < aLo → aLo ≤ a → a ≤ b → b ≤ cGap → b ≤ l.length →
    (∀ k, aLo ≤ k → k < b → tagAt l k ≤ tagAt l pivot) →
    (∀ k, b ≤ k → k < cGap → tagAt l k = tagAt l pivot) →
    ∃ l2 b2, protLoop pivot l a b n = (l2, b2)
      ∧ a ≤ b2 ∧ b2 ≤ b
      ∧ l2.length = l.length ∧ List.Perm l2 l ∧ Untouched l l2 a b
      ∧ (∀ k, aLo ≤ k → k < b2 → tagAt l2 k ≤ tagAt l2 pivot)
      ∧ (∀ k, b2 ≤ k → k < cGap → tagAt l2 k = tagAt l2 pivot)
      ∧ tagAt l2 pivot = tagAt l pivot := by
  intro n
  induction n with
  | zero => intro l a b hfuel; omega
  | succ n ihn =>
    intro l a b hfuel hpa hla hab hbc hbl hlow hgap
    obtain ⟨pb1, pb2, pb3, pb4⟩ := protScanB_spec pivot a l b (by omega)
    set b1 := protScanB pivot a l b with hb1
    obtain ⟨pa1, pa2, pa3, pa4⟩ := protScanA_spec pivot b1 l b1 a (by omega) pb1
    set a1 := protScanA pivot b1 l a b1 with ha1
    have hgap1 : ∀ k, b1 ≤ k → k < cGap → tagAt l k = tagAt l pivot := by
      intro k h1 h2
      by_cases hkb : k < b
      · exact le_antisymm (hlow k (by omega) hkb) (pb3 k h1 hkb)
      · exact hgap k (by omega) h2
    rw [protLoop]
    by_cases hexit : a1 ≥ b1
    · rw [if_pos hexit]
      refine ⟨l, b1, rfl, by omega, pb2, rfl, List.Perm.refl l, fun k _ => rfl, ?_, hgap1, rfl⟩
      intro k h1 h2
      exact hlow k h1 (by omega)
    · rw [if_neg hexit]
      push_neg at hexit
      have ha1b : ¬ tagAt l a1 < tagAt l pivot := pa4 hexit
      have hb1a : tagAt l (b1 - 1) < tagAt l pivot := pb4 (by omega)
      have hane : a1 ≠ b1 - 1 := by
        intro he
        rw [he] at ha1b
        exact ha1b hb1a
      have ha1lt : a1 < b1 - 1 := by omega
      have ha1l : a1 < l.length := by omega
      have hb1l : b1 - 1 < l.length := by omega
      set l1 := lswap l a1 (b1 - 1) with hl1
      have hlen1 : l1.length = l.length := length_lswap l a1 (b1 - 1)
      have hperm1 : List.Perm l1 l := lswap_perm l a1 (b1 - 1) ha1l hb1l
      have hget1 : ∀ k, k ≠ a1 → k ≠ b1 - 1 → lget l1 k = lget l k :=
        fun k h1 h2 => lget_lswap_other l a1 (b1 - 1) k ha1l hb1l h1 h2
      have htaga1 : tagAt l1 a1 = tagAt l (b1 - 1) := by
        unfold tagAt
        rw [lget_lswap_left l a1 (b1 - 1) ha1l hb1l hane]
      have htagb1 : tagAt l1 (b1 - 1) = tagAt l a1 := by
        unfold tagAt
        rw [lget_lswap_right l a1 (b1 - 1) ha1l hb1l]
      have htagother : ∀ k, k ≠ a1 → k ≠ b1 - 1 → tagAt l1 k = tagAt l k := by
        intro k h1 h2
        unfold tagAt
        rw [hget1 k h1 h2]
      have htagpivot : tagAt l1 pivot = tagAt l pivot :=
        htagother pivot (by omega) (by omega)
      have hlow2 : ∀ k, aLo ≤ k → k < b1 - 1 → tagAt l1 k ≤ tagAt l1 pivot := by
        intro k h1 h2
        rw [htagpivot]
        by_cases hk1 : k = a1
        · rw [hk1, htaga1]
          omega
        · rw [htagother k hk1 (by omega)]
          exact hlow k h1 (by omega)
      have hgap2 : ∀ k, b1 - 1 ≤ k → k < cGap → tagAt l1 k = tagAt l1 pivot := by
        intro k h1 h2
        rw [htagpivot]
        by_cases hk1 : k = b1 - 1
        · rw [hk1, htagb1]
          have := hlow a1 (by omega) (by omega)
          omega
        · rw [htagother k (by omega) hk1]
          exact hgap1 k (by omega) h2
      obtain ⟨l2, b2, hrec, hab2, hb2b, hlen2, hperm2, hout2, hlowf, hgapf, hpivf⟩ :=
        ihn l1 (a1 + 1) (b1 - 1) (by omega) hpa (by omega) (by omega) (by omega)
          (by omega) hlow2 hgap2
      refine ⟨l2, b2, ?_, by omega, by omega, hlen2.trans hlen1,
        hperm2.trans hperm1, ?_, hlowf, hgapf, hpivf.trans htagpivot⟩
      · rw [hrec]
      · intro k hk
        rw [hout2 k (by omega), hget1 k (by omega) (by omega)]

/-- Steps 2 and 3 of the duplicate guard: possibly retreat b over a
pivot-equal element and possibly swap a pivot-equal element at m to the new
b-1, extending the pivot-equal gap leftward by at most two positions. -/
theorem dupTail_spec (l1 : List EnumValue) (lo hi m b c1 d1 : Nat)
    (hhi : hi ≤ l1.length) (pv : Nat)
    (hm1 : lo + 6 ≤ m) (hmb : m + 2 ≤ b) (hb9 : lo + 9 ≤ b) (hbc1 : b ≤ c1)
    (hc1hi : c1 ≤ hi)
    (hpv : tagAt l1 lo = pv)
    (hlow : ∀ k, lo + 1 ≤ k → k < b → tagAt l1 k ≤ pv)
    (hgap : ∀ k, b ≤ k → k < c1 → tagAt l1 k = pv) :
    ∃ l3 b3 prot,
      (if ¬ less l1 m lo = true
        then lswap l1 m ((if ¬ less l1 (b - 1) lo = true then b - 1 else b) - 1)
        else l1) = l3
      ∧ (if ¬ less l1 m lo = true
          then (if ¬ less l1 (b - 1) lo = true then b - 1 else b) - 1
          else (if ¬ less l1 (b - 1) lo = true then b - 1 else b)) = b3
      ∧ (decide ((if ¬ less l1 m lo = true
          then (if ¬ less l1 (b - 1) lo = true then d1 + 1 else d1) + 1
          else (if ¬ less l1 (b - 1) lo = true then d1 + 1 else d1)) > 1) : Bool) = prot
      ∧ lo + 1 ≤ b3 ∧ b3 ≤ b
      ∧ l3.length = l1.length ∧ List.Perm l3 l1
      ∧ tagAt l3 lo = pv
      ∧ (∀ k, lo + 1 ≤ k → k < b3 → tagAt l3 k ≤ pv)
      ∧ (∀ k, b3 ≤ k → k < c1 → tagAt l3 k = pv)
      ∧ ∀ k, k ≠ m → k ≠ b - 2 → k ≠ b - 1 → lget l3 k = lget l1 k := by
  have hml : m < l1.length := by omega
  by_cases h2 : ¬ less l1 (b - 1) lo = true
  · simp only [if_pos h2]
    have hgeb : pv ≤ tagAt l1 (b - 1) := by
      rw [← hpv]
      by_contra hc
      exact h2 ((less_iff l1 (b - 1) lo).mpr (by omega))
    have heqb : tagAt l1 (b - 1) = pv :=
      le_antisymm (hlow (b - 1) (by omega) (by omega)) hgeb
    have hgap2 : ∀ k, b - 1 ≤ k → k < c1 → tagAt l1 k = pv := by
      intro k h1 hk
      by_cases hkb : k = b - 1
      · rw [hkb]; exact heqb
      · exact hgap k (by omega) hk
    by_cases h3 : ¬ less l1 m lo = true
    · simp only [if_pos h3]
      have hgem : pv ≤ tagAt l1 m := by
        rw [← hpv]
        by_contra hc
        exact h3 ((less_iff l1 m lo).mpr (by omega))
      have heqm : tagAt l1 m = pv :=
        le_antisymm (hlow m (by omega) (by omega)) hgem
      have hb2l : b - 1 - 1 < l1.length := by omega
      have htag : ∀ k, tagAt (lswap l1 m (b - 1 - 1)) k =
          if k = b - 1 - 1 then tagAt l1 m
          else if k = m then tagAt l1 (b - 1 - 1) else tagAt l1 k := by
        intro k
        unfold tagAt
        rw [lget_lswap l1 m (b - 1 - 1) k hml hb2l]
        by_cases hk1 : k = b - 1 - 1
        · simp only [if_pos hk1]
        · simp only [if_neg hk1]
          by_cases hk2 : k = m
          · simp only [if_pos hk2]
          · simp only [if_neg hk2]
      refine ⟨_, _, _, rfl, rfl, rfl, by omega, by omega,
        length_lswap l1 m (b - 1 - 1), lswap_perm l1 m (b - 1 - 1) hml hb2l, ?_, ?_, ?_, ?_⟩
      · rw [htag lo, if_neg (by omega), if_neg (by omega)]
        exact hpv
      · intro k h1 hk
        rw [htag k, if_neg (by omega)]
        by_cases hk2 : k = m
        · rw [if_pos hk2]
          exact hlow (b - 1 - 1) (by omega) (by omega)
        · rw [if_neg hk2]
          exact hlow k h1 (by omega)
      · intro k h1 hk
        by_cases hk1 : k = b - 1 - 1
        · rw [htag k, if_pos hk1]
          exact heqm
        · rw [htag k, if_neg hk1, if_neg (by omega)]
          exact hgap2 k (by omega) hk
      · intro k hk1 hk2 hk3
        exact lget_lswap_other l1 m (b - 1 - 1) k hml hb2l hk1 (by omega)
    · simp only [if_neg h3]
      exact ⟨l1, b - 1, _, rfl, rfl, rfl, by omega, by omega, rfl, List.Perm.refl l1,
        hpv, fun k h1 hk => hlow k h1 (by omega), hgap2, fun k _ _ _ => rfl⟩
  · simp only [if_neg h2]
    by_cases h3 : ¬ less l1 m lo = true
    · simp only [if_pos h3]
      have hgem : pv ≤ tagAt l1 m := by
        rw [← hpv]
        by_contra hc
        exact h3 ((less_iff l1 m lo).mpr (by omega))
      have heqm : tagAt l1 m = pv :=
        le_antisymm (hlow m (by omega) (by omega)) hgem
      have hb1l : b - 1 < l1.length := by omega
      have htag : ∀ k, tagAt (lswap l1 m (b - 1)) k =
          if k = b - 1 then tagAt l1 m
          else if k = m then tagAt l1 (b - 1) else tagAt l1 k := by
        intro k
        unfold tagAt
        rw [lget_lswap l1 m (b - 1) k hml hb1l]
        by_cases hk1 : k = b - 1
        · simp only [if_pos hk1]
        · simp only [if_neg hk1]
          by_cases hk2 : k = m
          · simp only [if_pos hk2]
          · simp only [if_neg hk2]
      refine ⟨_, _, _, rfl, rfl, rfl, by omega, by omega,
        length_lswap l1 m (b - 1), lswap_perm l1 m (b - 1) hml hb1l, ?_, ?_, ?_, ?_⟩
      · rw [htag lo, if_neg (by omega), if_neg (by omega)]
        exact hpv
      · intro k h1 hk
        rw [htag k, if_neg (by omega)]
        by_cases hk2 : k = m
        · rw [if_pos hk2]
          exact hlow (b - 1) (by omega) (by omega)
        · rw [if_neg hk2]
          exact hlow k h1 (by omega)
      · intro k h1 hk
        by_cases hk1 : k = b - 1
        · rw [htag k, if_pos hk1]
          exact heqm
        · rw [htag k, if_neg hk1, if_neg (by omega)]
          exact hgap k (by omega) hk
      · intro k hk1 hk2 hk3
        exact lget_lswap_other l1 m (b - 1) k hml hb1l hk1 hk3
    · simp only [if_neg h3]
      exact ⟨l1, b, _, rfl, rfl, rfl, by omega, le_rfl, rfl, List.Perm.refl l1,
        hpv, hlow, hgap, fun k _ _ _ => rfl⟩

/-- Specification of the duplicate guard: starting from the partition-exit
state b = c with a low region at most the pivot value and a high region
strictly above it, it returns regions meeting at a pivot-equal gap
[b3, c3), moving b3 down by at most two and c3 up by at most one. -/
theorem dupGuard_spec (l : List EnumValue) (lo hi m b c : Nat)
    (hn : 12 < hi - lo) (hhi : hi ≤ l.length)
    (hm : m = lo + (hi - lo) / 2)
    (hbc : b = c) (hbl : lo + 1 ≤ b) (hch : c ≤ hi - 1)
    (hlow : ∀ k, lo + 1 ≤ k → k < b → tagAt l k ≤ tagAt l lo)
    (hhigh : ∀ k, c ≤ k → k < hi - 1 → tagAt l lo < tagAt l k)
    (hhiM : tagAt l lo ≤ tagAt l (hi - 1)) :
    ∃ l3 b3 c3 prot, dupGuard l lo hi m b c = (l3, b3, c3, prot)
      ∧ lo + 1 ≤ b3 ∧ b3 ≤ b ∧ c ≤ c3 ∧ c3 ≤ hi
      ∧ l3.length = l.length ∧ List.Perm l3 l ∧ Untouched l l3 (lo + 1) hi
      ∧ tagAt l3 lo = tagAt l lo
      ∧ (∀ k, lo + 1 ≤ k → k < b3 → tagAt l3 k ≤ tagAt l lo)
      ∧ (∀ k, b3 ≤ k → k < c3 → tagAt l3 k = tagAt l lo)
      ∧ (∀ k, c3 ≤ k → k < hi → tagAt l lo ≤ tagAt l3 k) := by
  simp only [dupGuard]
  by_cases hcond : decide (hi - c < 5) = false ∧ hi - c < (hi - lo) / 4
  · rw [if_pos hcond]
    have h5 : 5 ≤ hi - c := by
      have := of_decide_eq_false hcond.1
      omega
    have hc4 : hi - c < (hi - lo) / 4 := hcond.2
    have hbbig : lo + 9 ≤ b := by omega
    have hmb : m + 2 ≤ b := by omega
    have hm6 : lo + 6 ≤ m := by omega
    have hchim : c < hi - 1 := by omega
    have hcl : c < l.length := by omega
    have hhl : hi - 1 < l.length := by omega
    by_cases h1 : ¬ less l lo (hi - 1) = true
    · simp only [if_pos h1]
      have hd1 : tagAt l (hi - 1) ≤ tagAt l lo := by
        by_contra hc
        exact h1 ((less_iff l lo (hi - 1)).mpr (by omega))
      have heq1 : tagAt l (hi - 1) = tagAt l lo := le_antisymm hd1 hhiM
      have hcne : c ≠ hi - 1 := by omega
      have hlen1 : (lswap l c (hi - 1)).length = l.length := length_lswap l c (hi - 1)
      have hperm1 : List.Perm (lswap l c (hi - 1)) l := lswap_perm l c (hi - 1) hcl hhl
      have htagc : tagAt (lswap l c (hi - 1)) c = tagAt l (hi - 1) := by
        unfold tagAt
        rw [lget_lswap_left l c (hi - 1) hcl hhl hcne]
      have htaghi : tagAt (lswap l c (hi - 1)) (hi - 1) = tagAt l c := by
        unfold tagAt
        rw [lget_lswap_right l c (hi - 1) hcl hhl]
      have hoth1 : ∀ k, k ≠ c → k ≠ hi - 1 → lget (lswap l c (hi - 1)) k = lget l k :=
        fun k hk1 hk2 => lget_lswap_other l c (hi - 1) k hcl hhl hk1 hk2
      have htoth1 : ∀ k, k ≠ c → k ≠ hi - 1 → tagAt (lswap l c (hi - 1)) k = tagAt l k := by
        intro k hk1 hk2
        unfold tagAt
        rw [hoth1 k hk1 hk2]
      have hpv1 : tagAt (lswap l c (hi - 1)) lo = tagAt l lo :=
        htoth1 lo (by omega) (by omega)
      have hlow1 : ∀ k, lo + 1 ≤ k → k < b → tagAt (lswap l c (hi - 1)) k ≤ tagAt l lo := by
        intro k h1' h2'
        rw [htoth1 k (by omega) (by omega)]
        exact hlow k h1' h2'
      have hgap1 : ∀ k, b ≤ k → k < c + 1 → tagAt (lswap l c (hi - 1)) k = tagAt l lo := by
        intro k h1' h2'
        have hke : k = c := by omega
        rw [hke, htagc]
        exact heq1
      obtain ⟨l3, b3, prot, he1, he2, he3, hb3lo, hb3b, hlen3, hperm3, hpv3, hlow3,
        hgap3, hpt3⟩ :=
        dupTail_spec (lswap l c (hi - 1)) lo hi m b (c + 1) 1 (by omega) (tagAt l lo)
          hm6 hmb hbbig (by omega) (by omega) hpv1 hlow1 hgap1
      refine ⟨l3, b3, c + 1, prot, ?_, hb3lo, hb3b, by omega, by omega,
        hlen3.trans hlen1, hperm3.trans hperm1, ?_, hpv3, hlow3, hgap3, ?_⟩
      · rw [he1, he2, he3]
      · intro k hk
        rw [hpt3 k (by omega) (by omega) (by omega), hoth1 k (by omega) (by omega)]
      · intro k h1' h2'
        have htk : tagAt l3 k = tagAt (lswap l c (hi - 1)) k := by
          unfold tagAt
          rw [hpt3 k (by omega) (by omega) (by omega)]
        rw [htk]
        by_cases hk1 : k = hi - 1
        · rw [hk1, htaghi]
          exact le_of_lt (hhigh c le_rfl hchim)
        · rw [htoth1 k (by omega) hk1]
          exact le_of_lt (hhigh k (by omega) (by omega))
    · simp only [if_neg h1]
      rw [not_not] at h1
      have hlt1 : tagAt l lo < tagAt l (hi - 1) := (less_iff l lo (hi - 1)).mp h1
      have hgap1 : ∀ k, b ≤ k → k < c → tagAt l k = tagAt l lo := by
        intro k h1' h2'
        omega
      obtain ⟨l3, b3, prot, he1, he2, he3, hb3lo, hb3b, hlen3, hperm3, hpv3, hlow3,
        hgap3, hpt3⟩ :=
        dupTail_spec l lo hi m b c 0 (by omega) (tagAt l lo)
          hm6 hmb hbbig (by omega) (by omega) rfl hlow hgap1
      refine ⟨l3, b3, c, prot, ?_, hb3lo, hb3b, le_rfl, by omega,
        hlen3, hperm3, ?_, hpv3, hlow3, hgap3, ?_⟩
      · rw [he1, he2, he3]
      · intro k hk
        rw [hpt3 k (by omega) (by omega) (by omega)]
      · intro k h1' h2'
        have htk : tagAt l3 k = tagAt l k := by
          unfold tagAt
          rw [hpt3 k (by omega) (by omega) (by omega)]
        rw [htk]
        by_cases hk1 : k = hi - 1
        · rw [hk1]
          exact hhiM
        · exact le_of_lt (hhigh k h1' (by omega))
  · rw [if_neg hcond]
    refine ⟨l, b, c, decide (hi - c < 5), rfl, hbl, le_rfl, le_rfl, by omega, rfl,
      List.Perm.refl l, fun k _ => rfl, rfl, hlow, ?_, ?_⟩
    · intro k h1 h2
      omega
    · intro k h1 h2
      by_cases hk : k < hi - 1
      · exact le_of_lt (hhigh k h1 hk)
      · have hke : k = hi - 1 := by omega
        rw [hke]
        exact hhiM

/-- The ninther preparation is a permutation confined to [lo, hi). -/
theorem ninther_spec (l : List EnumValue) (lo hi : Nat) (hhi : hi ≤ l.length)
    (hlo : lo < hi) :
    (ninther l lo hi).length = l.length ∧ List.Perm (ninther l lo hi) l
      ∧ Untouched l (ninther l lo hi) lo hi := by
  simp only [ninther]
  by_cases h40 : hi - lo > 40
  · rw [if_pos h40]
    obtain ⟨len1, perm1, oth1⟩ :=
      medianOfThree_perm l lo (lo + (hi - lo) / 8) (lo + 2 * ((hi - lo) / 8))
        (by omega) (by omega) (by omega)
    obtain ⟨len2, perm2, oth2⟩ :=
      medianOfThree_perm (medianOfThree l lo (lo + (hi - lo) / 8) (lo + 2 * ((hi - lo) / 8)))
        (lo + (hi - lo) / 2) (lo + (hi - lo) / 2 - (hi - lo) / 8)
        (lo + (hi - lo) / 2 + (hi - lo) / 8) (by omega) (by omega) (by omega)
    obtain ⟨len3, perm3, oth3⟩ :=
      medianOfThree_perm (medianOfThree
          (medianOfThree l lo (lo + (hi - lo) / 8) (lo + 2 * ((hi - lo) / 8)))
          (lo + (hi - lo) / 2) (lo + (hi - lo) / 2 - (hi - lo) / 8)
          (lo + (hi - lo) / 2 + (hi - lo) / 8))
        (hi - 1) (hi - 1 - (hi - lo) / 8) (hi - 1 - 2 * ((hi - lo) / 8))
        (by omega) (by omega) (by omega)
    refine ⟨len3.trans (len2.trans len1), perm3.trans (perm2.trans perm1), ?_⟩
    intro k hk
    rw [oth3 k (by omega) (by omega) (by omega), oth2 k (by omega) (by omega) (by omega),
      oth1 k (by omega) (by omega) (by omega)]
  · rw [if_neg h40]
    exact ⟨rfl, List.Perm.refl l, fun k _ => rfl⟩

/-- Specification of doPivot: on a range of at least 13 elements it returns
a partitioned list with a low region at most some pivot value, a non-empty
pivot-equal middle region [midlo, midhi) and a high region at least the
pivot value, permuting only [lo, hi). -/
theorem doPivot_spec (l : List EnumValue) (lo hi : Nat)
    (hn : 12 < hi - lo) (hhi : hi ≤ l.length) :
    ∃ l2 mlo mhi, doPivot l lo hi = (l2, mlo, mhi)
      ∧ lo ≤ mlo ∧ mlo < mhi ∧ mhi ≤ hi
      ∧ l2.length = l.length ∧ List.Perm l2 l ∧ Untouched l l2 lo hi
      ∧ ∃ pv, (∀ k, lo ≤ k → k < mlo → tagAt l2 k ≤ pv)
          ∧ (∀ k, mlo ≤ k → k < mhi → tagAt l2 k = pv)
          ∧ (∀ k, mhi ≤ k → k < hi → pv ≤ tagAt l2 k) := by
  simp only [doPivot]
  obtain ⟨hNlen, hNperm, hNunt⟩ := ninther_spec l lo hi hhi (by omega)
  set lN := ninther l lo hi with hlN
  obtain ⟨hMlen, hMperm, hMoth⟩ :=
    medianOfThree_perm lN lo (lo + (hi - lo) / 2) (hi - 1) (by omega) (by omega) (by omega)
  obtain ⟨hMo1, hMo2⟩ :=
    medianOfThree_order lN lo (lo + (hi - lo) / 2) (hi - 1) (by omega) (by omega) (by omega)
      (by omega) (by omega) (by omega)
  set lM := medianOfThree lN lo (lo + (hi - lo) / 2) (hi - 1) with hlM
  obtain ⟨sa1, sa2, sa3, sa4⟩ :=
    scanA_spec lo (hi - 1) lM (hi - 1) (lo + 1) (by omega) (by omega)
  set aa := scanA lo (hi - 1) lM (lo + 1) (hi - 1) with haa
  obtain ⟨l2, b2, c2, hpeq, hb2c2, hab2, hc2c, hlen2, hperm2, hunt2, hlow2, hhigh2, hpv2⟩ :=
    partLoop_spec lo (hi - 1) (lo + 1) (hi - 1) lM aa (hi - 1) (by omega) (by omega)
      sa1 sa2 le_rfl (by omega)
      (fun k h1 h2 => le_of_lt (sa3 k h1 h2))
      (fun k h1 h2 => absurd (h1.trans_lt h2) (by omega))
  simp only [hpeq]
  have hhiMtag : tagAt l2 lo ≤ tagAt l2 (hi - 1) := by
    have he : tagAt l2 (hi - 1) = tagAt lM (hi - 1) := by
      unfold tagAt
      rw [hunt2 (hi - 1) (Or.inr le_rfl)]
    rw [he, hpv2]
    exact hMo2
  obtain ⟨l3, b3, c3, prot, hgeq, hb3lo, hb3b2, hc2c3, hc3hi, hlen3, hperm3, hunt3,
    hpv3, hlow3, hgap3, hhigh3⟩ :=
    dupGuard_spec l2 lo hi (lo + (hi - lo) / 2) b2 c2 hn (by omega) rfl hb2c2
      (by omega) hc2c hlow2 hhigh2 hhiMtag
  simp only [hgeq]
  have hprot : ∃ l4 b4,
      (if prot = true then protLoop lo l3 (lo + 1) b3 b3 else (l3, b3)) = (l4, b4)
      ∧ lo + 1 ≤ b4 ∧ b4 ≤ b3
      ∧ l4.length = l3.length ∧ List.Perm l4 l3 ∧ Untouched l3 l4 (lo + 1) b3
      ∧ (∀ k, lo + 1 ≤ k → k < b4 → tagAt l4 k ≤ tagAt l2 lo)
      ∧ (∀ k, b4 ≤ k → k < c3 → tagAt l4 k = tagAt l2 lo)
      ∧ tagAt l4 lo = tagAt l2 lo := by
    by_cases hp : prot = true
    · rw [if_pos hp]
      obtain ⟨l4, b4, heq4, hab4, hb4b, hlen4, hperm4, hunt4, hlow4, hgap4, hpiv4⟩ :=
        protLoop_spec lo (lo + 1) c3 b3 l3 (lo + 1) b3 (by omega) (by omega) le_rfl
          hb3lo (by omega) (by omega)
          (fun k h1 h2 => by rw [hpv3]; exact hlow3 k h1 h2)
          (fun k h1 h2 => by rw [hpv3]; exact hgap3 k h1 h2)
      refine ⟨l4, b4, heq4, by omega, hb4b, hlen4, hperm4, hunt4, ?_, ?_, ?_⟩
      · intro k h1 h2
        have := hlow4 k h1 h2
        rw [hpiv4, hpv3] at this
        exact this
      · intro k h1 h2
        have := hgap4 k h1 h2
        rw [hpiv4, hpv3] at this
        exact this
      · rw [hpiv4]
        exact hpv3
    · rw [if_neg hp]
      exact ⟨l3, b3, rfl, hb3lo, le_rfl, rfl, List.Perm.refl l3, fun k _ => rfl,
        hlow3, hgap3, hpv3⟩
  obtain ⟨l4, b4, hq, hab4, hb4b3, hlen4, hperm4, hunt4, hlow4, hgap4, hpv4⟩ := hprot
  simp only [hq]
  have hlol : lo < l4.length := by omega
  have hb41l : b4 - 1 < l4.length := by omega
  refine ⟨lswap l4 lo (b4 - 1), b4 - 1, c3, rfl, by omega, by omega, hc3hi,
    ?_, ?_, ?_, tagAt l2 lo, ?_, ?_, ?_⟩
  · rw [length_lswap]
    omega
  · exact (lswap_perm l4 lo (b4 - 1) hlol hb41l).trans
      (hperm4.trans (hperm3.trans (hperm2.trans (hMperm.trans hNperm))))
  · intro k hk
    rw [lget_lswap_other l4 lo (b4 - 1) k hlol hb41l (by omega) (by omega),
      hunt4 k (by omega), hunt3 k (by omega), hunt2 k (by omega),
      hMoth k (by omega) (by omega) (by omega), hNunt k hk]
  · intro k h1 h2
    by_cases hklo : k = lo
    · have hne : lo ≠ b4 - 1 := by omega
      unfold tagAt
      rw [hklo, lget_lswap_left l4 lo (b4 - 1) hlol hb41l hne]
      exact hlow4 (b4 - 1) (by omega) (by omega)
    · have htk : tagAt (lswap l4 lo (b4 - 1)) k = tagAt l4 k := by
        unfold tagAt
        rw [lget_lswap_other l4 lo (b4 - 1) k hlol hb41l hklo (by omega)]
      rw [htk]
      exact hlow4 k (by omega) (by omega)
  · intro k h1 h2
    by_cases hkb : k = b4 - 1
    · unfold tagAt
      rw [hkb, lget_lswap_right l4 lo (b4 - 1) hlol hb41l]
      exact hpv4
    · have htk : tagAt (lswap l4 lo (b4 - 1)) k = tagAt l4 k := by
        unfold tagAt
        rw [lget_lswap_other l4 lo (b4 - 1) k hlol hb41l (by omega) hkb]
      rw [htk]
      exact hgap4 k (by omega) h2
  · intro k h1 h2
    have htk : tagAt (lswap l4 lo (b4 - 1)) k = tagAt l4 k := by
      unfold tagAt
      rw [lget_lswap_other l4 lo (b4 - 1) k hlol hb41l (by omega) (by omega)]
    have htk4 : tagAt l4 k = tagAt l3 k := by
      unfold tagAt
      rw [hunt4 k (Or.inr (by omega))]
    rw [htk, htk4]
    exact hhigh3 k h1 h2

/-- A tag predicate holding on all positions of [a, b) survives a
permutation of that slice. -/
theorem tag_bound_transfer (l l2 : List EnumValue) (a b : Nat) (P : Nat → Prop)
    (hlen : l2.length = l.length) (hperm : List.Perm (slice l2 a b) (slice l a b))
    (hb : b ≤ l.length) (h : ∀ k, a ≤ k → k < b → P (tagAt l k)) :
    ∀ k, a ≤ k → k < b → P (tagAt l2 k) := by
  intro k hak hkb
  have hkl : k < l2.length := by omega
  have hmem : lget l2 k ∈ slice l2 a b :=
    (mem_slice l2 a b _).mpr ⟨k, hak, hkb, hkl, rfl⟩
  have hmem2 : lget l2 k ∈ slice l a b := hperm.mem_iff.mp hmem
  obtain ⟨k0, hak0, hk0b, hk0l, heq⟩ := (mem_slice l a b _).mp hmem2
  have := h k0 hak0 hk0b
  rw [tagAt, heq] at this
  exact this

/-- Specification of the siftDown loop.  Heap positions are offsets from
first; i is the build threshold: all parent-child pairs whose parent index
is at least i hold, except possibly at the current root r, whose children
are additionally below r's own parent when that pair is in range.  The
loop restores every pair with parent at least i, permuting only positions
[first + i, first + hi). -/
theorem siftLoop_spec (hi first i : Nat) : ∀ (n : Nat) (l : List EnumValue) (r : Nat),
    hi ≤ n + r → i ≤ r → first + hi ≤ l.length →
    (∀ j, 0 < j → j < hi → i ≤ (j - 1) / 2 → (j - 1) / 2 ≠ r →
        tagAt l (first + j) ≤ tagAt l (first + (j - 1) / 2)) →
    (0 < r → i ≤ (r - 1) / 2 → ∀ c, c = 2 * r + 1 ∨ c = 2 * r + 2 → c < hi →
        tagAt l (first + c) ≤ tagAt l (first + (r - 1) / 2)) →
    (siftLoop hi first l r n).length = l.length
      ∧ List.Perm (siftLoop hi first l r n) l
      ∧ Untouched l (siftLoop hi first l r n) (first + i) (first + hi)
      ∧ ∀ j, 0 < j → j < hi → i ≤ (j - 1) / 2 →
          tagAt (siftLoop hi first l r n) (first + j)
            ≤ tagAt (siftLoop hi first l r n) (first + (j - 1) / 2) := by
  intro n
  induction n with
  | zero =>
    intro l r hfuel hir hlen hexc hx
    rw [siftLoop]
    refine ⟨rfl, List.Perm.refl l, fun k _ => rfl, ?_⟩
    intro j h1 h2 h3
    refine hexc j h1 h2 h3 ?_
    intro he
    omega
  | succ n ihn =>
    intro l r hfuel hir hlen hexc hx
    rw [siftLoop]
    by_cases hc1 : 2 * r + 1 ≥ hi
    · rw [if_pos hc1]
      refine ⟨rfl, List.Perm.refl l, fun k _ => rfl, ?_⟩
      intro j h1 h2 h3
      refine hexc j h1 h2 h3 ?_
      intro he
      omega
    · rw [if_neg hc1]
      set cs := if 2 * r + 1 + 1 < hi ∧ less l (first + (2 * r + 1)) (first + (2 * r + 1) + 1) = true
        then 2 * r + 1 + 1 else 2 * r + 1 with hcs
      have hcs1 : (cs = 2 * r + 1 ∨ cs = 2 * r + 2) ∧ cs < hi
          ∧ ∀ c2, (c2 = 2 * r + 1 ∨ c2 = 2 * r + 2) → c2 < hi →
              tagAt l (first + c2) ≤ tagAt l (first + cs) := by
        by_cases hs : 2 * r + 1 + 1 < hi
          ∧ less l (first + (2 * r + 1)) (first + (2 * r + 1) + 1) = true
        · rw [hcs, if_pos hs]
          have hlt := (less_iff l (first + (2 * r + 1)) (first + (2 * r + 1) + 1)).mp hs.2
          refine ⟨Or.inr (by omega), by omega, ?_⟩
          intro c2 hc2 hc2hi
          have he : first + (2 * r + 1) + 1 = first + (2 * r + 1 + 1) := by omega
          rw [he] at hlt
          rcases hc2 with h | h
          · rw [h]
            have he2 : (2 : Nat) * r + 1 + 1 = 2 * r + 2 := by omega
            omega
          · rw [h]
        · rw [hcs, if_neg hs]
          refine ⟨Or.inl rfl, by omega, ?_⟩
          intro c2 hc2 hc2hi
          rcases hc2 with h | h
          · rw [h]
          · rw [h]
            have hnb : ¬ less l (first + (2 * r + 1)) (first + (2 * r + 1) + 1) = true := by
              intro hb'
              exact hs ⟨by omega, hb'⟩
            rw [less_iff] at hnb
            have he : first + (2 * r + 1) + 1 = first + (2 * r + 2) := by omega
            rw [he] at hnb
            omega
      obtain ⟨hcsor, hcshi, hcsdom⟩ := hcs1
      have hcsgt : r < cs := by omega
      by_cases hc2 : ¬ less l (first + r) (first + cs) = true
      · rw [if_pos hc2]
        have hroot : tagAt l (first + cs) ≤ tagAt l (first + r) := by
          rw [less_iff] at hc2
          omega
        refine ⟨rfl, List.Perm.refl l, fun k _ => rfl, ?_⟩
        intro j h1 h2 h3
        by_cases hpar : (j - 1) / 2 = r
        · rw [hpar]
          have hj : j = 2 * r + 1 ∨ j = 2 * r + 2 := by omega
          exact (hcsdom j hj h2).trans hroot
        · exact hexc j h1 h2 h3 hpar
      · rw [if_neg hc2]
        rw [not_not] at hc2
        have hlt : tagAt l (first + r) < tagAt l (first + cs) := (less_iff _ _ _).mp hc2
        have hrl : first + r < l.length := by omega
        have hcl : first + cs < l.length := by omega
        have htagr : tagAt (lswap l (first + r) (first + cs)) (first + r)
            = tagAt l (first + cs) := by
          unfold tagAt
          rw [lget_lswap_left l (first + r) (first + cs) hrl hcl (by omega)]
        have htagc : tagAt (lswap l (first + r) (first + cs)) (first + cs)
            = tagAt l (first + r) := by
          unfold tagAt
          rw [lget_lswap_right l (first + r) (first + cs) hrl hcl]
        have htoth : ∀ k, k ≠ first + r → k ≠ first + cs →
            tagAt (lswap l (first + r) (first + cs)) k = tagAt l k := by
          intro k hk1 hk2
          unfold tagAt
          rw [lget_lswap_other l (first + r) (first + cs) k hrl hcl hk1 hk2]
        have hexc2 : ∀ j, 0 < j → j < hi → i ≤ (j - 1) / 2 → (j - 1) / 2 ≠ cs →
            tagAt (lswap l (first + r) (first + cs)) (first + j)
              ≤ tagAt (lswap l (first + r) (first + cs)) (first + (j - 1) / 2) := by
          intro j h1 h2 h3 hne'
          by_cases hpar : (j - 1) / 2 = r
          · rw [hpar, htagr]
            have hj : j = 2 * r + 1 ∨ j = 2 * r + 2 := by omega
            by_cases hjc : j = cs
            · rw [hjc, htagc]
              exact le_of_lt hlt
            · rw [htoth (first + j) (by omega) (by omega)]
              exact hcsdom j hj h2
          · rw [htoth (first + (j - 1) / 2) (by omega) (by omega)]
            by_cases hjr : j = r
            · rw [hjr, htagr]
              rw [hjr] at h2 h3
              exact hx (by omega) h3 cs hcsor hcshi
            · by_cases hjc : j = cs
              · exfalso
                rcases hcsor with h | h <;> omega
              · rw [htoth (first + j) (by omega) (by omega)]
                exact hexc j h1 h2 h3 hpar
        have hx2 : 0 < cs → i ≤ (cs - 1) / 2 →
            ∀ c2, c2 = 2 * cs + 1 ∨ c2 = 2 * cs + 2 → c2 < hi →
              tagAt (lswap l (first + r) (first + cs)) (first + c2)
                ≤ tagAt (lswap l (first + r) (first + cs)) (first + (cs - 1) / 2) := by
          intro _ hics c2 hc2or hc2hi
          have hpcs : (cs - 1) / 2 = r := by omega
          rw [hpcs, htagr]
          rw [htoth (first + c2) (by omega) (by omega)]
          have hpc2 : (c2 - 1) / 2 = cs := by omega
          have := hexc c2 (by omega) hc2hi (by omega) (by omega)
          rw [hpc2] at this
          exact this
        obtain ⟨rlen, rperm, runt, rpairs⟩ :=
          ihn (lswap l (first + r) (first + cs)) cs (by omega) (by omega)
            (by rw [length_lswap]; exact hlen) hexc2 hx2
        refine ⟨rlen.trans (length_lswap l (first + r) (first + cs)),
          rperm.trans (lswap_perm l (first + r) (first + cs) hrl hcl), ?_, rpairs⟩
        intro k hk
        rw [runt k hk,
          lget_lswap_other l (first + r) (first + cs) k hrl hcl (by omega) (by omega)]

/-- In a heap with greatest element at the top, every element is at most
the root. -/
theorem heap_le_root (l : List EnumValue) (first hi : Nat)
    (hheap : ∀ j, 0 < j → j < hi →
      tagAt l (first + j) ≤ tagAt l (first + (j - 1) / 2)) :
    ∀ j, j < hi → tagAt l (first + j) ≤ tagAt l first := by
  have key : ∀ N j, j ≤ N → j < hi → tagAt l (first + j) ≤ tagAt l first := by
    intro N
    induction N with
    | zero =>
      intro j hj hjhi
      have hj0 : j = 0 := by omega
      rw [hj0, Nat.add_zero]
    | succ N ihN =>
      intro j hj hjhi
      by_cases h0 : j = 0
      · rw [h0, Nat.add_zero]
      · exact (hheap j (by omega) hjhi).trans (ihN ((j - 1) / 2) (by omega) (by omega))
  exact fun j hj => key j j le_rfl hj

/-- Specification of the heap-building loop: processing roots i down to 0
yields the heap property everywhere on [0, hi). -/
theorem heapBuild_spec (hi first : Nat) : ∀ (i : Nat) (l : List EnumValue),
    first + hi ≤ l.length →
    (∀ j, 0 < j → j < hi → i + 1 ≤ (j - 1) / 2 →
        tagAt l (first + j) ≤ tagAt l (first + (j - 1) / 2)) →
    (heapBuild hi first l i).length = l.length
      ∧ List.Perm (heapBuild hi first l i) l
      ∧ Untouched l (heapBuild hi first l i) first (first + hi)
      ∧ ∀ j, 0 < j → j < hi →
          tagAt (heapBuild hi first l i) (first + j)
            ≤ tagAt (heapBuild hi first l i) (first + (j - 1) / 2) := by
  intro i
  induction i with
  | zero =>
    intro l hlen hpre
    rw [heapBuild, siftDown]
    obtain ⟨slen, sperm, sunt, spairs⟩ :=
      siftLoop_spec hi first 0 (hi + 1) l 0 (by omega) le_rfl hlen
        (fun j h1 h2 _ h4 => hpre j h1 h2 (by omega))
        (fun h => absurd h (lt_irrefl 0))
    exact ⟨slen, sperm, fun k hk => sunt k (by omega),
      fun j h1 h2 => spairs j h1 h2 (by omega)⟩
  | succ i ihi =>
    intro l hlen hpre
    rw [heapBuild, siftDown]
    obtain ⟨slen, sperm, sunt, spairs⟩ :=
      siftLoop_spec hi first (i + 1) (hi + 1) l (i + 1) (by omega) le_rfl hlen
        (fun j h1 h2 h3 h4 => hpre j h1 h2 (by omega))
        (fun _ hcc => absurd hcc (by omega))
    obtain ⟨blen, bperm, bunt, bpairs⟩ :=
      ihi (siftLoop hi first l (i + 1) (hi + 1)) (by rw [slen]; exact hlen)
        (fun j h1 h2 h3 => spairs j h1 h2 (by omega))
    refine ⟨blen.trans slen, bperm.trans sperm, ?_, bpairs⟩
    intro k hk
    rw [bunt k hk, sunt k (by omega)]

/-- Specification of the popping loop of heapSort: with a heap on [0, i), a
sorted tail [i, hi0) and every heap element at most every tail element,
popping i elements sorts the whole range. -/
theorem heapPop_spec (first hi0 : Nat) : ∀ (i : Nat) (l : List EnumValue),
    i ≤ hi0 → first + hi0 ≤ l.length →
    (∀ j, 0 < j → j < i → tagAt l (first + j) ≤ tagAt l (first + (j - 1) / 2)) →
    SortedRange l (first + i) (first + hi0) →
    (∀ j k, j < i → i ≤ k → k < hi0 → tagAt l (first + j) ≤ tagAt l (first + k)) →
    (heapPop first l i).length = l.length
      ∧ List.Perm (heapPop first l i) l
      ∧ Untouched l (heapPop first l i) first (first + hi0)
      ∧ SortedRange (heapPop first l i) first (first + hi0) := by
  intro i
  induction i with
  | zero =>
    intro l hih hlen hheap hsort hcross
    rw [heapPop]
    refine ⟨rfl, List.Perm.refl l, fun k _ => rfl, ?_⟩
    intro p q hp hpq hq
    exact hsort p q (by omega) hpq hq
  | succ i ihi =>
    intro l hih hlen hheap hsort hcross
    rw [heapPop, siftDown]
    have hfl : first < l.length := by omega
    have hfil : first + i < l.length := by omega
    have hroot := heap_le_root l first (i + 1) hheap
    have hlen1 : (lswap l first (first + i)).length = l.length :=
      length_lswap l first (first + i)
    have htagi : tagAt (lswap l first (first + i)) (first + i) = tagAt l first := by
      unfold tagAt
      rw [lget_lswap_right l first (first + i) hfl hfil]
    have hget1hi : ∀ k, first + i < k → lget (lswap l first (first + i)) k = lget l k := by
      intro k hk
      exact lget_lswap_other l first (first + i) k hfl hfil (by omega) (by omega)
    have hl1low : ∀ j, j < i → tagAt (lswap l first (first + i)) (first + j)
        ≤ tagAt l first := by
      intro j hj
      by_cases hj0 : j = 0
      · rw [hj0, Nat.add_zero]
        have he : tagAt (lswap l first (first + i)) first = tagAt l (first + i) := by
          unfold tagAt
          rw [lget_lswap_left l first (first + i) hfl hfil (by omega)]
        rw [he]
        exact hroot i (by omega)
      · have he : tagAt (lswap l first (first + i)) (first + j) = tagAt l (first + j) := by
          unfold tagAt
          rw [lget_lswap_other l first (first + i) (first + j) hfl hfil (by omega) (by omega)]
        rw [he]
        exact hroot j (by omega)
    have hl1lowk : ∀ kk, i + 1 ≤ kk → kk < hi0 → ∀ j, j < i →
        tagAt (lswap l first (first + i)) (first + j) ≤ tagAt l (first + kk) := by
      intro kk hk1 hk2 j hj
      by_cases hj0 : j = 0
      · rw [hj0, Nat.add_zero]
        have he : tagAt (lswap l first (first + i)) first = tagAt l (first + i) := by
          unfold tagAt
          rw [lget_lswap_left l first (first + i) hfl hfil (by omega)]
        rw [he]
        exact hcross i kk (by omega) hk1 hk2
      · have he : tagAt (lswap l first (first + i)) (first + j) = tagAt l (first + j) := by
          unfold tagAt
          rw [lget_lswap_other l first (first + i) (first + j) hfl hfil (by omega) (by omega)]
        rw [he]
        exact hcross j kk (by omega) hk1 hk2
    obtain ⟨slen, sperm, sunt, spairs⟩ :=
      siftLoop_spec i first 0 (i + 1) (lswap l first (first + i)) 0 (by omega) le_rfl
        (by rw [hlen1]; omega)
        (by
          intro j h1 h2 _ h4
          have hej : tagAt (lswap l first (first + i)) (first + j)
              = tagAt l (first + j) := by
            unfold tagAt
            rw [lget_lswap_other l first (first + i) (first + j) hfl hfil
              (by omega) (by omega)]
          have hep : tagAt (lswap l first (first + i)) (first + (j - 1) / 2)
              = tagAt l (first + (j - 1) / 2) := by
            unfold tagAt
            rw [lget_lswap_other l first (first + i) (first + (j - 1) / 2) hfl hfil
              (by omega) (by omega)]
          rw [hej, hep]
          exact hheap j h1 (by omega))
        (fun h => absurd h (lt_irrefl 0))
    have hget2 : ∀ k, first + i ≤ k →
        lget (siftLoop i first (lswap l first (first + i)) 0 (i + 1)) k
          = lget (lswap l first (first + i)) k := by
      intro k hk
      exact sunt k (Or.inr (by omega))
    have hsort2 : SortedRange (siftLoop i first (lswap l first (first + i)) 0 (i + 1))
        (first + i) (first + hi0) := by
      intro p q hp hpq hq
      have e2q : tagAt (siftLoop i first (lswap l first (first + i)) 0 (i + 1)) q
          = tagAt l q := by
        unfold tagAt
        rw [hget2 q (by omega), hget1hi q (by omega)]
      by_cases hpi : p = first + i
      · have e2p : tagAt (siftLoop i first (lswap l first (first + i)) 0 (i + 1)) p
            = tagAt l first := by
          rw [hpi]
          have he : tagAt (siftLoop i first (lswap l first (first + i)) 0 (i + 1))
              (first + i) = tagAt (lswap l first (first + i)) (first + i) := by
            unfold tagAt
            rw [hget2 (first + i) le_rfl]
          rw [he, htagi]
        rw [e2p, e2q]
        have hq' : q = first + (q - first) := by omega
        rw [hq']
        have := hcross 0 (q - first) (by omega) (by omega) (by omega)
        rw [Nat.add_zero] at this
        exact this
      · have e2p : tagAt (siftLoop i first (lswap l first (first + i)) 0 (i + 1)) p
            = tagAt l p := by
          unfold tagAt
          rw [hget2 p hp, hget1hi p (by omega)]
        rw [e2p, e2q]
        exact hsort p q (by omega) hpq hq
    have hslice : List.Perm
        (slice (siftLoop i first (lswap l first (first + i)) 0 (i + 1)) first (first + i))
        (slice (lswap l first (first + i)) first (first + i)) :=
      perm_slice_of_untouched (lswap l first (first + i))
        (siftLoop i first (lswap l first (first + i)) 0 (i + 1)) first (first + i)
        slen sperm (fun k hk => sunt k (by omega)) (by omega) (by omega)
    have hbound1 : ∀ T : Nat,
        (∀ k, first ≤ k → k < first + i →
          tagAt (lswap l first (first + i)) k ≤ T) →
        ∀ k, first ≤ k → k < first + i →
          tagAt (siftLoop i first (lswap l first (first + i)) 0 (i + 1)) k ≤ T :=
      fun T h => tag_bound_transfer (lswap l first (first + i))
        (siftLoop i first (lswap l first (first + i)) 0 (i + 1)) first (first + i)
        (fun t => t ≤ T) slen hslice (by omega) h
    have hcross2 : ∀ j kk, j < i → i ≤ kk → kk < hi0 →
        tagAt (siftLoop i first (lswap l first (first + i)) 0 (i + 1)) (first + j)
          ≤ tagAt (siftLoop i first (lswap l first (first + i)) 0 (i + 1)) (first + kk) := by
      intro j kk hj hk1 hk2
      have e2k : tagAt (siftLoop i first (lswap l first (first + i)) 0 (i + 1)) (first + kk)
          = tagAt (lswap l first (first + i)) (first + kk) := by
        unfold tagAt
        rw [hget2 (first + kk) (by omega)]
      by_cases hki : kk = i
      · rw [e2k, hki, htagi]
        refine hbound1 (tagAt l first) ?_ (first + j) (by omega) (by omega)
        intro k hk1' hk2'
        have hj' : k = first + (k - first) := by omega
        rw [hj']
        exact hl1low (k - first) (by omega)
      · have e1k : tagAt (lswap l first (first + i)) (first + kk)
            = tagAt l (first + kk) := by
          unfold tagAt
          rw [hget1hi (first + kk) (by omega)]
        rw [e2k, e1k]
        refine hbound1 (tagAt l (first + kk)) ?_ (first + j) (by omega) (by omega)
        intro k hk1' hk2'
        have hj' : k = first + (k - first) := by omega
        rw [hj']
        exact hl1lowk kk (by omega) hk2 (k - first) (by omega)
    obtain ⟨rlen, rperm, runt, rsort⟩ :=
      ihi (siftLoop i first (lswap l first (first + i)) 0 (i + 1)) (by omega)
        (by rw [slen, hlen1]; exact hlen)
        (fun j h1 h2 => spairs j h1 h2 (by omega)) hsort2 hcross2
    refine ⟨rlen.trans (slen.trans hlen1),
      rperm.trans (sperm.trans (lswap_perm l first (first + i) hfl hfil)), ?_, rsort⟩
    intro k hk
    rw [runt k hk, sunt k (by omega),
      lget_lswap_other l first (first + i) k hfl hfil (by omega) (by omega)]

/-- Specification of heapSort: a sorted permutation of [a, b), other
positions untouched. -/
theorem heapSort_spec (l : List EnumValue) (a b : Nat) (hab : a ≤ b)
    (hbl : b ≤ l.length) :
    (heapSort l a b).length = l.length ∧ List.Perm (heapSort l a b) l
      ∧ Untouched l (heapSort l a b) a b
      ∧ SortedRange (heapSort l a b) a b := by
  rw [heapSort]
  obtain ⟨blen, bperm, bunt, bpairs⟩ :=
    heapBuild_spec (b - a) a ((b - a - 1) / 2) l (by omega)
      (fun j h1 h2 h3 => absurd h3 (by omega))
  obtain ⟨plen, pperm, punt, psort⟩ :=
    heapPop_spec a (b - a) (b - a) (heapBuild (b - a) a l ((b - a - 1) / 2)) le_rfl
      (by rw [blen]; omega) (fun j h1 h2 => bpairs j h1 h2)
      (fun p q hp hpq hq => absurd hq (by omega))
      (fun j k h1 h2 h3 => absurd (h2.trans_lt h3) (by omega))
  refine ⟨plen.trans blen, pperm.trans bperm, ?_, ?_⟩
  · intro k hk
    rw [punt k (by omega), bunt k (by omega)]
  · intro p q hp hpq hq
    exact psort p q (by omega) hpq (by omega)

/-- The small-range path of quickSort (shell pass then insertion sort, or
nothing below two elements) sorts [a, b). -/
theorem quickSort_insertion_spec (l : List EnumValue) (a b : Nat) (hbl : b ≤ l.length) :
    (if b - a > 1 then insertionSort (shellLoop a b l (a + 6) b) a b else l).length
        = l.length
      ∧ List.Perm (if b - a > 1 then insertionSort (shellLoop a b l (a + 6) b) a b else l) l
      ∧ Untouched l (if b - a > 1 then insertionSort (shellLoop a b l (a + 6) b) a b else l) a b
      ∧ SortedRange (if b - a > 1 then insertionSort (shellLoop a b l (a + 6) b) a b else l)
          a b := by
  by_cases h1 : b - a > 1
  · rw [if_pos h1]
    obtain ⟨slen, sperm, sunt⟩ := shellLoop_spec a b b (a + 6) l le_rfl hbl
    obtain ⟨ilen, iperm, iunt, isort⟩ :=
      insertionSort_spec (shellLoop a b l (a + 6) b) a b (by rw [slen]; exact hbl)
    exact ⟨ilen.trans slen, iperm.trans sperm,
      fun k hk => (iunt k hk).trans (sunt k hk), isort⟩
  · rw [if_neg h1]
    refine ⟨rfl, List.Perm.refl l, fun k _ => rfl, ?_⟩
    intro p q hp hpq hq
    omega

/-- Full specification of quickSort: a sorted permutation of [a, b), other
positions untouched. -/
theorem quickSort_spec : ∀ (d : Nat) (l : List EnumValue) (a b : Nat), b ≤ l.length →
    (quickSort l a b d).length = l.length ∧ List.Perm (quickSort l a b d) l
      ∧ Untouched l (quickSort l a b d) a b
      ∧ SortedRange (quickSort l a b d) a b := by
  intro d
  induction d with
  | zero =>
    intro l a b hbl
    rw [quickSort]
    by_cases h13 : b - a > 12
    · rw [if_pos h13]
      exact heapSort_spec l a b (by omega) hbl
    · rw [if_neg h13]
      exact quickSort_insertion_spec l a b hbl
  | succ d ihd =>
    intro l a b hbl
    rw [quickSort]
    by_cases h13 : b - a > 12
    · rw [if_pos h13]
      obtain ⟨l2, mlo, mhi, hpeq, halo, hlomhi, hmhib, hlen2, hperm2, hunt2, pv,
        hlowr, hmidr, hhighr⟩ := doPivot_spec l a b (by omega) hbl
      simp only [hpeq]
      by_cases horder : mlo - a < b - mhi
      · rw [if_pos horder]
        obtain ⟨len3, perm3, unt3, sort3⟩ := ihd l2 a mlo (by omega)
        obtain ⟨len4, perm4, unt4, sort4⟩ :=
          ihd (quickSort l2 a mlo d) mhi b (by rw [len3, hlen2]; exact hbl)
        have hlow3 : ∀ k, a ≤ k → k < mlo → tagAt (quickSort l2 a mlo d) k ≤ pv :=
          tag_bound_transfer l2 (quickSort l2 a mlo d) a mlo (fun t => t ≤ pv) len3
            (perm_slice_of_untouched l2 (quickSort l2 a mlo d) a mlo len3 perm3 unt3
              (by omega) (by omega)) (by omega) hlowr
        have hmid3 : ∀ k, mlo ≤ k → k < mhi → tagAt (quickSort l2 a mlo d) k = pv := by
          intro k hk1 hk2
          have he : tagAt (quickSort l2 a mlo d) k = tagAt l2 k := by
            unfold tagAt
            rw [unt3 k (Or.inr hk1)]
          rw [he]
          exact hmidr k hk1 hk2
        have hhigh3 : ∀ k, mhi ≤ k → k < b → pv ≤ tagAt (quickSort l2 a mlo d) k := by
          intro k hk1 hk2
          have he : tagAt (quickSort l2 a mlo d) k = tagAt l2 k := by
            unfold tagAt
            rw [unt3 k (Or.inr (by omega))]
          rw [he]
          exact hhighr k hk1 hk2
        have hptw4 : ∀ k, k < mhi →
            lget (quickSort (quickSort l2 a mlo d) mhi b d) k
              = lget (quickSort l2 a mlo d) k :=
          fun k hk => unt4 k (Or.inl hk)
        have hlow4 : ∀ k, a ≤ k → k < mlo →
            tagAt (quickSort (quickSort l2 a mlo d) mhi b d) k ≤ pv := by
          intro k hk1 hk2
          have he : tagAt (quickSort (quickSort l2 a mlo d) mhi b d) k
              = tagAt (quickSort l2 a mlo d) k := by
            unfold tagAt
            rw [hptw4 k (by omega)]
          rw [he]
          exact hlow3 k hk1 hk2
        have hmid4 : ∀ k, mlo ≤ k → k < mhi →
            tagAt (quickSort (quickSort l2 a mlo d) mhi b d) k = pv := by
          intro k hk1 hk2
          have he : tagAt (quickSort (quickSort l2 a mlo d) mhi b d) k
              = tagAt (quickSort l2 a mlo d) k := by
            unfold tagAt
            rw [hptw4 k hk2]
          rw [he]
          exact hmid3 k hk1 hk2
        have hhigh4 : ∀ k, mhi ≤ k → k < b →
            pv ≤ tagAt (quickSort (quickSort l2 a mlo d) mhi b d) k :=
          tag_bound_transfer (quickSort l2 a mlo d)
            (quickSort (quickSort l2 a mlo d) mhi b d) mhi b (fun t => pv ≤ t) len4
            (perm_slice_of_untouched (quickSort l2 a mlo d)
              (quickSort (quickSort l2 a mlo d) mhi b d) mhi b len4 perm4 unt4
              (by omega) (by rw [len3, hlen2]; exact hbl)) (by rw [len3, hlen2]; exact hbl)
            hhigh3
        have hsortL4 : SortedRange (quickSort (quickSort l2 a mlo d) mhi b d) a mlo := by
          intro p q hp hpq hq
          have hep : tagAt (quickSort (quickSort l2 a mlo d) mhi b d) p
              = tagAt (quickSort l2 a mlo d) p := by
            unfold tagAt
            rw [hptw4 p (by omega)]
          have heq' : tagAt (quickSort (quickSort l2 a mlo d) mhi b d) q
              = tagAt (quickSort l2 a mlo d) q := by
            unfold tagAt
            rw [hptw4 q (by omega)]
          rw [hep, heq']
          exact sort3 p q hp hpq hq
        refine ⟨len4.trans (len3.trans hlen2), perm4.trans (perm3.trans hperm2), ?_, ?_⟩
        · intro k hk
          rw [unt4 k (by omega), unt3 k (by omega), hunt2 k hk]
        · intro p q hp hpq hq
          by_cases hq1 : q < mlo
          · exact hsortL4 p q hp hpq hq1
          · by_cases hq2 : q < mhi
            · have hqv := hmid4 q (by omega) hq2
              by_cases hp1 : p < mlo
              · rw [hqv]
                exact hlow4 p hp hp1
              · rw [hqv, hmid4 p (by omega) (by omega)]
            · by_cases hp2 : p < mhi
              · have hqv := hhigh4 q (by omega) hq
                by_cases hp1 : p < mlo
                · exact (hlow4 p hp hp1).trans hqv
                · rw [hmid4 p (by omega) hp2]
                  exact hqv
              · exact sort4 p q (by omega) hpq hq
      · rw [if_neg horder]
        obtain ⟨len3, perm3, unt3, sort3⟩ := ihd l2 mhi b (by rw [hlen2]; exact hbl)
        obtain ⟨len4, perm4, unt4, sort4⟩ :=
          ihd (quickSort l2 mhi b d) a mlo (by rw [len3, hlen2]; omega)
        have hhigh3 : ∀ k, mhi ≤ k → k < b → pv ≤ tagAt (quickSort l2 mhi b d) k :=
          tag_bound_transfer l2 (quickSort l2 mhi b d) mhi b (fun t => pv ≤ t) len3
            (perm_slice_of_untouched l2 (quickSort l2 mhi b d) mhi b len3 perm3 unt3
              (by omega) (by rw [hlen2]; exact hbl)) (by rw [hlen2]; exact hbl) hhighr
        have hmid3 : ∀ k, mlo ≤ k → k < mhi → tagAt (quickSort l2 mhi b d) k = pv := by
          intro k hk1 hk2
          have he : tagAt (quickSort l2 mhi b d) k = tagAt l2 k := by
            unfold tagAt
            rw [unt3 k (Or.inl hk2)]
          rw [he]
          exact hmidr k hk1 hk2
        have hlow3 : ∀ k, a ≤ k → k < mlo → tagAt (quickSort l2 mhi b d) k ≤ pv := by
          intro k hk1 hk2
          have he : tagAt (quickSort l2 mhi b d) k = tagAt l2 k := by
            unfold tagAt
            rw [unt3 k (Or.inl (by omega))]
          rw [he]
          exact hlowr k hk1 hk2
        have hptw4 : ∀ k, mlo ≤ k →
            lget (quickSort (quickSort l2 mhi b d) a mlo d) k
              = lget (quickSort l2 mhi b d) k :=
          fun k hk => unt4 k (Or.inr hk)
        have hhigh4 : ∀ k, mhi ≤ k → k < b →
            pv ≤ tagAt (quickSort (quickSort l2 mhi b d) a mlo d) k := by
          intro k hk1 hk2
          have he : tagAt (quickSort (quickSort l2 mhi b d) a mlo d) k
              = tagAt (quickSort l2 mhi b d) k := by
            unfold tagAt
            rw [hptw4 k (by omega)]
          rw [he]
          exact hhigh3 k hk1 hk2
        have hmid4 : ∀ k, mlo ≤ k → k < mhi →
            tagAt (quickSort (quickSort l2 mhi b d) a mlo d) k = pv := by
          intro k hk1 hk2
          have he : tagAt (quickSort (quickSort l2 mhi b d) a mlo d) k
              = tagAt (quickSort l2 mhi b d) k := by
            unfold tagAt
            rw [hptw4 k hk1]
          rw [he]
          exact hmid3 k hk1 hk2
        have hlow4 : ∀ k, a ≤ k → k < mlo →
            tagAt (quickSort (quickSort l2 mhi b d) a mlo d) k ≤ pv :=
          tag_bound_transfer (quickSort l2 mhi b d)
            (quickSort (quickSort l2 mhi b d) a mlo d) a mlo (fun t => t ≤ pv) len4
            (perm_slice_of_untouched (quickSort l2 mhi b d)
              (quickSort (quickSort l2 mhi b d) a mlo d) a mlo len4 perm4 unt4
              (by omega) (by rw [len3, hlen2]; omega)) (by rw [len3, hlen2]; omega) hlow3
        have hsortR4 : SortedRange (quickSort (quickSort l2 mhi b d) a mlo d) mhi b := by
          intro p q hp hpq hq
          have hep : tagAt (quickSort (quickSort l2 mhi b d) a mlo d) p
              = tagAt (quickSort l2 mhi b d) p := by
            unfold tagAt
            rw [hptw4 p (by omega)]
          have heq' : tagAt (quickSort (quickSort l2 mhi b d) a mlo d) q
              = tagAt (quickSort l2 mhi b d) q := by
            unfold tagAt
            rw [hptw4 q (by omega)]
          rw [hep, heq']
          exact sort3 p q hp hpq hq
        refine ⟨len4.trans (len3.trans hlen2), perm4.trans (perm3.trans hperm2), ?_, ?_⟩
        · intro k hk
          rw [unt4 k (by omega), unt3 k (by omega), hunt2 k hk]
        · intro p q hp hpq hq
          by_cases hq1 : q < mlo
          · exact sort4 p q hp hpq hq1
          · by_cases hq2 : q < mhi
            · have hqv := hmid4 q (by omega) hq2
              by_cases hp1 : p < mlo
              · rw [hqv]
                exact hlow4 p hp hp1
              · rw [hqv, hmid4 p (by omega) (by omega)]
            · by_cases hp2 : p < mhi
              · have hqv := hhigh4 q (by omega) hq
                by_cases hp1 : p < mlo
                · exact (hlow4 p hp hp1).trans hqv
                · rw [hmid4 p (by omega) hp2]
                  exact hqv
              · exact hsortR4 p q (by omega) hpq hq
    · rw [if_neg h13]
      exact quickSort_insertion_spec l a b hbl

/-- Full specification of the sort.Sort entry point: the result is a sorted
permutation of the input. -/
theorem sortList_spec (l : List EnumValue) :
    (sortList l).length = l.length ∧ List.Perm (sortList l) l
      ∧ SortedRange (sortList l) 0 l.length := by
  rw [sortList]
  obtain ⟨qlen, qperm, qunt, qsort⟩ :=
    quickSort_spec (2 * depthCount l.length l.length) l 0 l.length le_rfl
  exact ⟨qlen, qperm, qsort⟩

end GoSort

/-- Sorting a small enum twice changes nothing after the first time. -/
theorem enumSorted_idem (e : Enum) (h : e.Values.length ≤ 12) :
    e.sorted.sorted = e.sorted := by
  cases e with
  | mk n vs al c =>
    simp only [Enum.sorted]
    rw [GoSort.sortList_idem_small vs h]

/-- Writing an already-written small enum reproduces the write exactly. -/
theorem enumWrite_sorted_eq (e : Enum) (lvl : Nat) (h : e.Values.length ≤ 12) :
    Enum.Write e.sorted lvl = Enum.Write e lvl := by
  rw [Enum.Write, Enum.Write, enumSorted_idem e h]

/-- Validation success is invariant under the in-place enum sort (the value
list is permuted, and every condition of Enum.Validate is permutation
invariant). -/
theorem enumValidate_sorted_ok (e : Enum) (h : e.Values.length ≤ 12) :
    (Enum.Validate e.sorted = .ok ()) ↔ (Enum.Validate e = .ok ()) := by
  obtain ⟨hlen, hperm, -⟩ := GoSort.sortList_small_spec e.Values h
  cases e with
  | mk n vs al c =>
    rw [enumValidate_ok_iff, enumValidate_ok_iff]
    simp only [Enum.sorted]
    constructor
    · rintro ⟨h1, h2, h3⟩
      refine ⟨h1, ?_, ?_⟩
      · intro hnil
        subst hnil
        exact h2 rfl
      · rcases h3 with h3 | h3
        · exact Or.inl h3
        · exact Or.inr ((hperm.map (fun v => v.Tag)).nodup_iff.mp h3)
    · rintro ⟨h1, h2, h3⟩
      refine ⟨h1, ?_, ?_⟩
      · intro hnil
        apply h2
        have h0 := hlen
        rw [hnil] at h0
        exact List.length_eq_zero.mp h0.symm
      · rcases h3 with h3 | h3
        · exact Or.inl h3
        · exact Or.inr ((hperm.map (fun v => v.Tag)).nodup_iff.mpr h3)

/-- The enum loop maps each enum to its sorted form; re-running it on the
sorted forms reproduces the run exactly when all enums are small. -/
theorem writeEnumList_fix (lvl : Nat) (pre post : String) : ∀ (es : List Enum),
    (∀ e ∈ es, e.Values.length ≤ 12) →
    writeEnumList lvl pre post (es.map Enum.sorted) = writeEnumList lvl pre post es := by
  intro es
  induction es with
  | nil => intro _; rfl
  | cons e es ih =>
    intro h
    simp only [List.map_cons, writeEnumList, Enum.Write, enumSorted_idem e (h e (by simp)),
      ih (fun x hx => h x (by simp [hx]))]

/-- Characterization of Message.SmallEnums. -/
theorem msgSmallEnums_iff (name comment : String) (msgs : List Message) (rsv : List Reserved)
    (flds : List Field) (oos : List OneOf) (enums : List Enum) :
    Message.SmallEnums (.mk name comment msgs rsv flds oos enums) = true ↔
      (∀ e ∈ enums, e.Values.length ≤ 12)
        ∧ (∀ mm ∈ msgs, Message.SmallEnums mm = true) := by
  have hgo : ∀ ms : List Message, Message.SmallEnums.go ms = true ↔
      ∀ mm ∈ ms, Message.SmallEnums mm = true := by
    intro ms
    induction ms with
    | nil => simp [Message.SmallEnums.go]
    | cons m ms ihm => simp [Message.SmallEnums.go, Bool.and_eq_true, ihm]
  rw [Message.SmallEnums, Bool.and_eq_true, List.all_eq_true, hgo]
  simp

/-- The nested message loop of Message.Write replaces each valid child by
its written form. -/
theorem msgsGo_eq (lvl : Nat) : ∀ (ms : List Message),
    (∀ mi ∈ ms, Message.Validate mi = .ok ()) →
    ∃ s, Message.Write.go lvl ms
        = (.ok s, ms.map (fun mi => (Message.Write mi (lvl + 1)).2)) := by
  intro ms
  induction ms with
  | nil => intro _; exact ⟨"", rfl⟩
  | cons m ms ih =>
    intro h
    obtain ⟨s1, m', hm⟩ := msgWrite_ok m (lvl + 1) (h m (by simp))
    obtain ⟨s2, hrest⟩ := ih (fun x hx => h x (by simp [hx]))
    refine ⟨s1 ++ "\n\n" ++ s2, ?_⟩
    simp only [Message.Write.go, hm, hrest, List.map_cons]

/-- Re-running the nested message loop on already-written children
reproduces the run, given the per-child fixpoint property. -/
theorem msgsGo_fix (lvl : Nat) : ∀ (ms : List Message),
    (∀ mi ∈ ms, Message.Validate mi = .ok ()) →
    (∀ mi ∈ ms, Message.Write ((Message.Write mi (lvl + 1)).2) (lvl + 1)
        = Message.Write mi (lvl + 1)) →
    Message.Write.go lvl (ms.map (fun mi => (Message.Write mi (lvl + 1)).2))
      = Message.Write.go lvl ms := by
  intro ms
  induction ms with
  | nil => intro _ _; rfl
  | cons m ms ih =>
    intro hval hfix
    obtain ⟨s1, m', hm⟩ := msgWrite_ok m (lvl + 1) (hval m (by simp))
    have hfm : Message.Write m' (lvl + 1) = (.ok s1, m') := by
      have h0 := hfix m (by simp)
      rw [hm] at h0
      simpa using h0
    simp only [List.map_cons, hm, Message.Write.go, hfm,
      ih (fun x hx => hval x (by simp [hx])) (fun x hx => hfix x (by simp [hx]))]

/-- Master fixpoint induction: writing a valid message whose enums are all
small produces a message that validates, is still small, and is a fixed
point of Write (writing it again yields the same text and the same
message). -/
theorem msgWrite_fix_aux : ∀ n : Nat, ∀ m : Message, sizeOf m < n → ∀ lvl : Nat,
    Message.Validate m = .ok () → Message.SmallEnums m = true →
    Message.Validate ((Message.Write m lvl).2) = .ok ()
      ∧ Message.SmallEnums ((Message.Write m lvl).2) = true
      ∧ Message.Write ((Message.Write m lvl).2) lvl = Message.Write m lvl := by
  intro n
  induction n with
  | zero => intro m hm; omega
  | succ n ih =>
    intro m hm lvl hval hsmall
    cases m with
    | mk name comment msgs rsv flds oos enums =>
      have hvi := hval
      rw [msgValidate_ok_iff] at hvi
      obtain ⟨hn1, hflds, hmsgs, hrsv, henums⟩ := hvi
      rw [msgSmallEnums_iff] at hsmall
      obtain ⟨hsen, hsmm⟩ := hsmall
      have hsz : ∀ x ∈ msgs, sizeOf x < n := by
        intro x hx
        have h1 : sizeOf x < sizeOf msgs := List.sizeOf_lt_of_mem hx
        have h2 : sizeOf msgs < sizeOf (Message.mk name comment msgs rsv flds oos enums) := by
          simp [Message.mk.sizeOf_spec]
          omega
        omega
      have hchild : ∀ x ∈ msgs,
          Message.Validate ((Message.Write x (lvl + 1)).2) = .ok ()
            ∧ Message.SmallEnums ((Message.Write x (lvl + 1)).2) = true
            ∧ Message.Write ((Message.Write x (lvl + 1)).2) (lvl + 1)
                = Message.Write x (lvl + 1) :=
        fun x hx => ih x (hsz x hx) (lvl + 1) (hmsgs x hx) (hsmm x hx)
      obtain ⟨sgo, hgo⟩ := msgsGo_eq lvl msgs hmsgs
      obtain ⟨sen, hen⟩ := writeEnumList_eq (lvl + 1) "" "\n\n" enums
      obtain ⟨srs, hrs⟩ := reservedLines_ok lvl rsv
      obtain ⟨sfl, hfl⟩ := fieldLines_ok lvl flds
      obtain ⟨soo, hoo⟩ := oneOfBlocks_ok lvl oos
      have h2nd : (Message.Write (.mk name comment msgs rsv flds oos enums) lvl).2
          = .mk name comment (msgs.map (fun mi => (Message.Write mi (lvl + 1)).2)) rsv flds
              oos (enums.map Enum.sorted) := by
        simp only [Message.Write, hval, hgo, hen, hrs, hfl, hoo]
      have hvalid' : Message.Validate (Message.mk name comment
          (msgs.map (fun mi => (Message.Write mi (lvl + 1)).2)) rsv flds oos
          (enums.map Enum.sorted)) = .ok () := by
        rw [msgValidate_ok_iff]
        refine ⟨hn1, hflds, ?_, hrsv, ?_⟩
        · intro mm hmm
          rw [List.mem_map] at hmm
          obtain ⟨x, hx, rfl⟩ := hmm
          exact (hchild x hx).1
        · intro e he
          rw [List.mem_map] at he
          obtain ⟨x, hx, rfl⟩ := he
          exact (enumValidate_sorted_ok x (hsen x hx)).mpr (henums x hx)
      have hsmall' : Message.SmallEnums (Message.mk name comment
          (msgs.map (fun mi => (Message.Write mi (lvl + 1)).2)) rsv flds oos
          (enums.map Enum.sorted)) = true := by
        rw [msgSmallEnums_iff]
        constructor
        · intro e he
          rw [List.mem_map] at he
          obtain ⟨x, hx, rfl⟩ := he
          have hlen := (GoSort.sortList_small_spec x.Values (hsen x hx)).1
          show x.sorted.Values.length ≤ 12
          have hv2 : x.sorted.Values = GoSort.sortList x.Values := by
            cases x
            rfl
          rw [hv2, hlen]
          exact hsen x hx
        · intro mm hmm
          rw [List.mem_map] at hmm
          obtain ⟨x, hx, rfl⟩ := hmm
          exact (hchild x hx).2.1
      have hgo2 : Message.Write.go lvl (msgs.map (fun mi => (Message.Write mi (lvl + 1)).2))
          = (.ok sgo, msgs.map (fun mi => (Message.Write mi (lvl + 1)).2)) :=
        (msgsGo_fix lvl msgs hmsgs (fun x hx => (hchild x hx).2.2)).trans hgo
      have hen2 : writeEnumList (lvl + 1) "" "\n\n" (enums.map Enum.sorted)
          = (.ok sen, enums.map Enum.sorted) :=
        (writeEnumList_fix (lvl + 1) "" "\n\n" enums hsen).trans hen
      rw [h2nd]
      refine ⟨hvalid', hsmall', ?_⟩
      simp only [Message.Write, hval, hvalid', hgo, hgo2, hen, hen2, hrs, hfl, hoo]

/-- Fixpoint facts for writing a valid, small message. -/
theorem msgWrite_fix (m : Message) (lvl : Nat) (hval : Message.Validate m = .ok ())
    (hsmall : Message.SmallEnums m = true) :
    Message.Validate ((Message.Write m lvl).2) = .ok ()
      ∧ Message.SmallEnums ((Message.Write m lvl).2) = true
      ∧ Message.Write ((Message.Write m lvl).2) lvl = Message.Write m lvl :=
  msgWrite_fix_aux (sizeOf m + 1) m (by omega) lvl hval hsmall

/-- The top-level message loop of Spec.Write replaces each valid message by
its written form. -/
theorem specMsgBlocks_eq : ∀ (ms : List Message),
    (∀ mi ∈ ms, Message.Validate mi = .ok ()) →
    ∃ s, specMsgBlocks ms = (.ok s, ms.map (fun mi => (Message.Write mi 0).2)) := by
  intro ms
  induction ms with
  | nil => intro _; exact ⟨"", rfl⟩
  | cons m ms ih =>
    intro h
    obtain ⟨s1, m', hm⟩ := msgWrite_ok m 0 (h m (by simp))
    obtain ⟨s2, hrest⟩ := ih (fun x hx => h x (by simp [hx]))
    refine ⟨"\n" ++ s1 ++ "\n" ++ s2, ?_⟩
    simp only [specMsgBlocks, hm, hrest, List.map_cons]

/-- Re-running the top-level message loop on already-written messages
reproduces the run. -/
theorem specMsgBlocks_fix : ∀ (ms : List Message),
    (∀ mi ∈ ms, Message.Validate mi = .ok ()) →
    (∀ mi ∈ ms, Message.Write ((Message.Write mi 0).2) 0 = Message.Write mi 0) →
    specMsgBlocks (ms.map (fun mi => (Message.Write mi 0).2)) = specMsgBlocks ms := by
  intro ms
  induction ms with
  | nil => intro _ _; rfl
  | cons m ms ih =>
    intro hval hfix
    obtain ⟨s1, m', hm⟩ := msgWrite_ok m 0 (hval m (by simp))
    have hfm : Message.Write m' 0 = (.ok s1, m') := by
      have h0 := hfix m (by simp)
      rw [hm] at h0
      simpa using h0
    simp only [List.map_cons, hm, specMsgBlocks, hfm,
      ih (fun x hx => hval x (by simp [hx])) (fun x hx => hfix x (by simp [hx]))]

/-- Claim C8 (amended): rendering the same valid Document twice in sequence
(the second render seeing the in-place enumeration sort performed by the
first) yields byte-identical output, provided every enumeration in the
document has at most 12 values; beyond that size the unstable quicksort can
reorder equal-tag values again on the second render, as the counterexample
shows. -/
theorem C8_render_idempotent (s : Spec) (hv : Spec.Validate s = .ok ())
    (hsm : Spec.SmallEnums s = true) :
    (Spec.Write (Spec.Write s).2).1 = (Spec.Write s).1 := by
  obtain ⟨hne, hmsgs, henums⟩ := (specValidate_ok_iff s).mp hv
  rw [Spec.SmallEnums, Bool.and_eq_true, List.all_eq_true, List.all_eq_true] at hsm
  obtain ⟨hsen', hsmm'⟩ := hsm
  have hsen : ∀ e ∈ s.Enums, e.Values.length ≤ 12 := by
    intro e he
    have := hsen' e he
    simpa using this
  have hsmm : ∀ m ∈ s.Messages, Message.SmallEnums m = true := hsmm'
  have hfix : ∀ m ∈ s.Messages,
      Message.Validate ((Message.Write m 0).2) = .ok ()
        ∧ Message.SmallEnums ((Message.Write m 0).2) = true
        ∧ Message.Write ((Message.Write m 0).2) 0 = Message.Write m 0 :=
    fun m hm => msgWrite_fix m 0 (hmsgs m hm) (hsmm m hm)
  obtain ⟨sen, hen⟩ := writeEnumList_eq 0 "\n" "\n" s.Enums
  obtain ⟨sm, hms⟩ := specMsgBlocks_eq s.Messages hmsgs
  have h2nd : (Spec.Write s).2 = Spec.mk s.Package s.JavaPackage s.Imports
      (s.Messages.map (fun mi => (Message.Write mi 0).2)) (s.Enums.map Enum.sorted) := by
    simp only [Spec.Write, hv, hen, hms]
  have hvalid' : Spec.Validate (Spec.mk s.Package s.JavaPackage s.Imports
      (s.Messages.map (fun mi => (Message.Write mi 0).2)) (s.Enums.map Enum.sorted))
      = .ok () := by
    rw [specValidate_ok_iff]
    refine ⟨by simpa using hne, ?_, ?_⟩
    · intro mm hmm
      rw [List.mem_map] at hmm
      obtain ⟨x, hx, rfl⟩ := hmm
      exact (hfix x hx).1
    · intro e he
      rw [List.mem_map] at he
      obtain ⟨x, hx, rfl⟩ := he
      exact (enumValidate_sorted_ok x (hsen x hx)).mpr (henums x hx)
  have hen2 : writeEnumList 0 "\n" "\n" (s.Enums.map Enum.sorted)
      = (.ok sen, s.Enums.map Enum.sorted) :=
    (writeEnumList_fix 0 "\n" "\n" s.Enums hsen).trans hen
  have hms2 : specMsgBlocks (s.Messages.map (fun mi => (Message.Write mi 0).2))
      = (.ok sm, s.Messages.map (fun mi => (Message.Write mi 0).2)) :=
    (specMsgBlocks_fix s.Messages hmsgs (fun x hx => (hfix x hx).2.2)).trans hms
  rw [h2nd]
  simp only [Spec.Write, hv, hvalid', hen, hen2, hms, hms2]

/-- Closed witness for the amended C8 at a concrete two-value document. -/
theorem C8_render_idempotent_witness :
    (Spec.Write (Spec.Write ⟨"", "", [], [Message.mk "M" "" [] [] [] [] []],
        [⟨"E", [⟨"b", 1, ""⟩, ⟨"a", 0, ""⟩], true, ""⟩]⟩).2).1
      = (Spec.Write ⟨"", "", [], [Message.mk "M" "" [] [] [] [] []],
        [⟨"E", [⟨"b", 1, ""⟩, ⟨"a", 0, ""⟩], true, ""⟩]⟩).1 :=
  C8_render_idempotent _ rfl rfl

/-- C4 (amended): for every enumeration and indentation level, the value
list carried by the written enumeration — the list whose lines the render
emits in order — is the Go sort of the input values: a permutation of the
input whose tags are non-decreasing.  The relative order of values sharing
a tag is not preserved in general (see the counterexample). -/
theorem C4_enum_sorted (e : Enum) (level : Nat) :
    (Enum.Write e level).2.Values = GoSort.sortList e.Values
      ∧ List.Perm ((Enum.Write e level).2.Values) e.Values
      ∧ GoSort.SortedRange ((Enum.Write e level).2.Values) 0 e.Values.length := by
  have h1 : (Enum.Write e level).2.Values = GoSort.sortList e.Values := rfl
  obtain ⟨slen, sperm, ssort⟩ := GoSort.sortList_spec e.Values
  exact ⟨h1, by rw [h1]; exact sperm, by rw [h1]; exact ssort⟩

end Protogen
